import Mathlib

/-!
Shallow embedding of the `metis-rs` multilevel k-way graph partitioner
(`src/graph.rs`, `src/coarsen.rs`, `src/partition.rs`, `src/refine.rs`,
`src/kway.rs`) and verification of the frozen claims about it.

Conventions of the embedding:
* Rust `Vec<usize>` / `Vec<i64>` become `List Nat` / `List Int`; machine
  integers are modelled as unbounded (the spec declares overflow the
  caller's responsibility), and Rust's `i64` division (truncation toward
  zero) is `Int.tdiv`.
* Indexing `v[i]` becomes `List.getD v i 0` (resp. `false`); `v[i] = x`
  becomes `List.set`.  On the in-bounds indices exercised by the code the
  two agree with Rust; claims about well-formed inputs only ever evaluate
  the defaults where Rust itself would not panic.
* The floating-point balance cap
  `(total_weight as f64 * 1.05 / nparts as f64).ceil() as i64`
  of `refine.rs` is abstracted as an explicit parameter
  `capOf : Int → Nat → Int` threaded through the refiner and the driver;
  every theorem quantifying over `capOf` in particular covers the value
  the Rust code computes.  `specCap` below is the exact-rational ceiling
  used to instantiate witnesses and counterexamples (it agrees with the
  f64 computation on the small totals appearing in them).
* The iteration order of Rust's `HashMap::drain` in
  `coarsen.rs::build_coarse_graph` is abstracted as a reorder parameter;
  see `buildCoarseGraph` below.
-/

/-- CSR graph, mirroring `graph.rs::Graph`: row pointers `xadj`
(length `n+1`), flattened neighbor lists `adjncy`, optional edge weights
`adjwgt` (empty = all 1) and optional vertex weights `vwgt` (empty = all 1). -/
structure Graph where
  n : Nat
  xadj : List Nat
  adjncy : List Nat
  adjwgt : List Int
  vwgt : List Int
deriving Repr, DecidableEq

namespace Graph

/-- `Graph::new`: asserts `xadj.len() == n + 1`; a failed assertion is `none`. -/
def new? (n : Nat) (xadj : List Nat) (adjncy : List Nat) : Option Graph :=
  if xadj.length = n + 1 then
    some { n := n, xadj := xadj, adjncy := adjncy, adjwgt := [], vwgt := [] }
  else
    none

/-- `Graph::with_adjwgt`: asserts `adjwgt.len() == adjncy.len()`. -/
def withAdjwgt? (g : Graph) (adjwgt : List Int) : Option Graph :=
  if adjwgt.length = g.adjncy.length then
    some { g with adjwgt := adjwgt }
  else
    none

/-- `Graph::with_vwgt`: asserts `vwgt.len() == n`. -/
def withVwgt? (g : Graph) (vwgt : List Int) : Option Graph :=
  if vwgt.length = g.n then
    some { g with vwgt := vwgt }
  else
    none

/-- `Graph::degree`: `xadj[u + 1] - xadj[u]` (saturating like `usize` on
well-formed monotone `xadj`; `Nat` subtraction). -/
def degree (g : Graph) (u : Nat) : Nat :=
  g.xadj.getD (u + 1) 0 - g.xadj.getD u 0

/-- The `k`-th neighbor of `u`: `adjncy[xadj[u] + k]`. -/
def adj (g : Graph) (u k : Nat) : Nat :=
  g.adjncy.getD (g.xadj.getD u 0 + k) 0

/-- `Graph::edge_weight`: weight of the `k`-th edge of `u`; 1 when
`adjwgt` is empty. -/
def edgeWeight (g : Graph) (u k : Nat) : Int :=
  if g.adjwgt.isEmpty then 1 else g.adjwgt.getD (g.xadj.getD u 0 + k) 0

/-- `Graph::vertex_weight`: weight of vertex `u`; 1 when `vwgt` is empty. -/
def vertexWeight (g : Graph) (u : Nat) : Int :=
  if g.vwgt.isEmpty then 1 else g.vwgt.getD u 0

/-- `Graph::weighted_degree`: total weight of edges incident to `u`. -/
def weightedDegree (g : Graph) (u : Nat) : Int :=
  if g.adjwgt.isEmpty then (g.degree u : Int)
  else ∑ k ∈ Finset.range (g.degree u), g.adjwgt.getD (g.xadj.getD u 0 + k) 0

/-- The doubled cut: sum over all directed CSR entries `(u, k)` whose
endpoints lie in different parts of the edge weight.  `edge_cut` divides
this by two. -/
def cutNum (g : Graph) (part : List Nat) : Int :=
  ∑ u ∈ Finset.range g.n, ∑ k ∈ Finset.range (g.degree u),
    if part.getD u 0 ≠ part.getD (g.adj u k) 0 then g.edgeWeight u k else 0

/-- `Graph::edge_cut`: every crossing entry counted once per direction,
then `cut / 2` with Rust's `i64` (truncating) division. -/
def edgeCut (g : Graph) (part : List Nat) : Int :=
  Int.tdiv (g.cutNum part) 2

/-- Aggregated weight of all CSR entries from `u` to `v` (several
parallel entries sum up).  This is the natural reading of the adjacency
structure used to state undirectedness. -/
def wSum (g : Graph) (u v : Nat) : Int :=
  ∑ k ∈ Finset.range (g.degree u), if g.adj u k = v then g.edgeWeight u k else 0

end Graph

/-- Every CSR entry points to a vertex `< n`. -/
def ValidAdj (g : Graph) : Prop :=
  ∀ u < g.n, ∀ k < g.degree u, g.adj u k < g.n

/-- Undirectedness as the spec expects it: the aggregated weight from `u`
to `v` equals the aggregated weight from `v` to `u`. -/
def SymGraph (g : Graph) : Prop :=
  ∀ u < g.n, ∀ v < g.n, g.wSum u v = g.wSum v u

/-- All edge weights non-negative (spec: weights are expected non-negative). -/
def NonnegEdges (g : Graph) : Prop :=
  ∀ u < g.n, ∀ k < g.degree u, 0 ≤ g.edgeWeight u k

/-- All vertex weights non-negative (spec: weights are expected non-negative). -/
def NonnegVerts (g : Graph) : Prop :=
  ∀ u < g.n, 0 ≤ g.vertexWeight u

instance (g : Graph) : Decidable (ValidAdj g) := by
  unfold ValidAdj; infer_instance

instance (g : Graph) : Decidable (SymGraph g) := by
  unfold SymGraph; infer_instance

instance (g : Graph) : Decidable (NonnegEdges g) := by
  unfold NonnegEdges; infer_instance

instance (g : Graph) : Decidable (NonnegVerts g) := by
  unfold NonnegVerts; infer_instance

/-- Total vertex weight of the graph. -/
def totalVwgt (g : Graph) : Int :=
  ∑ u ∈ Finset.range g.n, g.vertexWeight u

/-- Total vertex weight assigned to part `t` by `part`. -/
def partWeight (g : Graph) (part : List Nat) (t : Nat) : Int :=
  ∑ u ∈ Finset.range g.n, if part.getD u 0 = t then g.vertexWeight u else 0

/-- The exact rational value `⌈(total · 21) / (20 · nparts)⌉` of the
balance cap `⌈total · 1.05 / nparts⌉` (`1.05 = 21/20`); used to
instantiate the abstract cap parameter on concrete inputs, where it
agrees with the f64 computation of `refine.rs`. -/
def specCap (total : Int) (nparts : Nat) : Int :=
  -((-(21 * total)) / (20 * (nparts : Int)))

/-! ## Refiner (`refine.rs`) -/

namespace Refine

/-- The per-vertex scan of `fm_pass`: walk `u`'s CSR entries accumulating
`int` (weight to `u`'s own part) and the per-part external weights `ext`
(a vector of length `nparts`, out-of-range parts dropped exactly where
Rust would panic on an invalid partition). -/
def extInt (g : Graph) (part : List Nat) (nparts : Nat) (u : Nat) :
    List Int × Int :=
  (List.range (g.degree u)).foldl
    (fun acc k =>
      let v := g.adj u k
      let w := g.edgeWeight u k
      if part.getD v 0 = part.getD u 0 then (acc.1, acc.2 + w)
      else (acc.1.set (part.getD v 0) (acc.1.getD (part.getD v 0) 0 + w), acc.2))
    (List.replicate nparts 0, 0)

/-- `gain > best_gain` where the running best is `none` for the
`i64::MIN` sentinel (no real gain is below it barring overflow). -/
def better (gain : Int) (best : Option (Nat × Nat × Int)) : Bool :=
  match best with
  | none => true
  | some (_, _, bg) => decide (bg < gain)

/-- Inner loop of `fm_pass` over the target part `to`: skip `to = from`,
zero external weight, and balance violations; record `(u, to, gain)` when
the gain strictly beats the running best. -/
def scanTo (g : Graph) (pw : List Int) (cap : Int) (nparts : Nat)
    (u fr : Nat) (ext : List Int) (internal : Int)
    (best : Option (Nat × Nat × Int)) : Option (Nat × Nat × Int) :=
  (List.range nparts).foldl
    (fun best dst =>
      if dst = fr ∨ ext.getD dst 0 = 0 then best
      else if cap < pw.getD dst 0 + g.vertexWeight u then best
      else
        let gain := ext.getD dst 0 - internal
        if better gain best then some (u, dst, gain) else best)
    best

/-- Outer candidate scan of `fm_pass`: over all unlocked boundary
vertices, the best `(u, to, gain)` triple (first strictly better wins). -/
def findBest (g : Graph) (part : List Nat) (pw : List Int)
    (locked : List Bool) (nparts : Nat) (cap : Int) :
    Option (Nat × Nat × Int) :=
  (List.range g.n).foldl
    (fun best u =>
      if locked.getD u false then best
      else
        let fr := part.getD u 0
        let ei := extInt g part nparts u
        if ei.1.any (fun e => decide (0 < e)) then
          scanTo g pw cap nparts u fr ei.1 ei.2 best
        else best)
    none

/-- The `for _iter in 0..n` move loop of `fm_pass` (`fuel` starts at `n`):
commit the best move while its gain is strictly positive, updating the
partition, the part-weight vector and the lock flags. -/
def fmIter (g : Graph) (nparts : Nat) (cap : Int) :
    Nat → List Nat → List Int → List Bool → Bool → List Nat × Bool
  | 0, part, _, _, improved => (part, improved)
  | fuel + 1, part, pw, locked, improved =>
    match findBest g part pw locked nparts cap with
    | some (u, dst, gain) =>
      if 0 < gain then
        let fr := part.getD u 0
        let vw := g.vertexWeight u
        let pw1 := pw.set fr (pw.getD fr 0 - vw)
        let pw2 := pw1.set dst (pw1.getD dst 0 + vw)
        fmIter g nparts cap fuel (part.set u dst) pw2 (locked.set u true) true
      else (part, improved)
    | none => (part, improved)

/-- Initial `part_weight` vector of `fm_pass`:
`part_weight[part[u]] += vertex_weight(u)` over all `u`. -/
def pwInit (g : Graph) (part : List Nat) (nparts : Nat) : List Int :=
  (List.range g.n).foldl
    (fun pw u =>
      pw.set (part.getD u 0) (pw.getD (part.getD u 0) 0 + g.vertexWeight u))
    (List.replicate nparts 0)

/-- `fm_pass`, with the f64 balance cap abstracted as `capOf`. -/
def fmPass (g : Graph) (capOf : Int → Nat → Int) (part : List Nat)
    (nparts : Nat) : List Nat × Bool :=
  let pw := pwInit g part nparts
  let total := pw.foldl (· + ·) 0
  let cap := capOf total nparts
  fmIter g nparts cap g.n part pw (List.replicate g.n false) false

/-- The `for _pass in 0..max_passes` loop of `fm_refine`, stopping as
soon as a pass makes no move. -/
def fmRefineLoop (g : Graph) (capOf : Int → Nat → Int) (nparts : Nat) :
    Nat → List Nat → List Nat
  | 0, part => part
  | passes + 1, part =>
    let r := fmPass g capOf part nparts
    if r.2 then fmRefineLoop g capOf nparts passes r.1 else r.1

end Refine

/-- `fm_refine`: no-op when `g.n == 0 || nparts <= 1`, otherwise up to
`maxPasses` passes of boundary moves. -/
def fmRefine (g : Graph) (capOf : Int → Nat → Int) (part : List Nat)
    (nparts maxPasses : Nat) : List Nat :=
  if g.n = 0 ∨ nparts ≤ 1 then part
  else Refine.fmRefineLoop g capOf nparts maxPasses part

/-! ## Initial partitioner (`partition.rs`) -/

namespace Partition

/-- Candidate scan of `grow_bisection`: over vertices not yet in part 0,
the best `(u, gain)` where `gain` sums the edge weights into part 0; the
running best starts at `(None, -1)` and is replaced on a strictly greater
gain (or an equal gain while no vertex is recorded, mirroring the
`gain == best_gain && best_u.is_none()` clause for the `-1` sentinel). -/
def growFind (g : Graph) (inPart0 : List Bool) : Option Nat × Int :=
  (List.range g.n).foldl
    (fun acc u =>
      if inPart0.getD u false then acc
      else
        let gain := ∑ k ∈ Finset.range (g.degree u),
          if inPart0.getD (g.adj u k) false then g.edgeWeight u k else 0
        if acc.2 < gain ∨ (gain = acc.2 ∧ acc.1 = none) then (some u, gain)
        else acc)
    (none, -1)

/-- The `loop` of `grow_bisection`.  Each iteration that does not return
moves one vertex from outside part 0 into part 0, so at most `g.n + 1`
iterations can run; `fuel` starts at `g.n + 1` and the fuel-exhausted
branch is unreachable. -/
def growLoop (g : Graph) (target : Int) :
    Nat → List Nat → List Bool → Int → List Nat
  | 0, part, _, _ => part
  | fuel + 1, part, inPart0, weight0 =>
    if target ≤ weight0 then part
    else
      match growFind g inPart0 with
      | (some u, bestGain) =>
        if 0 < bestGain ∨ weight0 < target then
          growLoop g target fuel (part.set u 0) (inPart0.set u true)
            (weight0 + g.vertexWeight u)
        else part
      | (none, _) => part

/-- `grow_bisection`: grow part 0 from `seed` until it reaches half the
total vertex weight (Rust `i64` division for the target). -/
def growBisection (g : Graph) (seed : Nat) : List Nat :=
  let total := totalVwgt g
  let target := Int.tdiv total 2
  growLoop g target (g.n + 1) ((List.replicate g.n 1).set seed 0)
    ((List.replicate g.n false).set seed true) (g.vertexWeight seed)

/-- Stable insertion of `a` into a list sorted by `le`: `a` lands before
the first element it compares `le` to (so ties keep original order). -/
def insBy (le : Nat → Nat → Bool) (a : Nat) : List Nat → List Nat
  | [] => [a]
  | b :: bs => if le a b then a :: b :: bs else b :: insBy le a bs

/-- Stable insertion sort.  Rust's stable `sort_by` with a total
comparator has a unique output (sorted, ties in original order), which
this computes; `sort_unstable` on `Nat` keys likewise has the sorted
permutation as its unique output.  (Structural recursion so that
concrete instances evaluate inside the kernel.) -/
def insSortBy (le : Nat → Nat → Bool) : List Nat → List Nat
  | [] => []
  | a :: as => insBy le a (insSortBy le as)

/-- Rust `Vec::dedup`: drop consecutive duplicates. -/
def consecDedup : List Nat → List Nat
  | [] => []
  | [a] => [a]
  | a :: b :: rest =>
    if a = b then consecDedup (b :: rest) else a :: consecDedup (b :: rest)

/-- `initial_bisection`: deterministic candidate seeds (`0`, `n/2`,
`n-1`, plus the four highest weighted degrees by a stable descending
sort), sorted and deduplicated; grow from each and keep the smallest cut.
The running best starts at `(i64::MAX, vec![0; n])`, modelled as `none`
(any real cut beats the sentinel, so the first candidate always lands). -/
def initialBisection (g : Graph) : List Nat :=
  let n := g.n
  if n = 0 then []
  else if n = 1 then [0]
  else
    let byDegree := insSortBy
      (fun a b => decide (g.weightedDegree b ≤ g.weightedDegree a))
      (List.range n)
    let cands0 := [0, n / 2, n - 1] ++ byDegree.take 4
    let cands := consecDedup (insSortBy (fun a b => decide (a ≤ b)) cands0)
    let best := cands.foldl
      (fun (best : Option (Int × List Nat)) seed =>
        let p := growBisection g seed
        let c := g.edgeCut p
        match best with
        | none => some (c, p)
        | some (bc, _) => if c < bc then some (c, p) else best)
      none
    match best with
    | some (_, p) => p
    | none => List.replicate n 0

/-- `build_subgraph`: induced subgraph on `verts` (assumed without
duplicates, as produced by the callers), with the `HashMap` lookup of
local indices rendered as `findIdx?`. -/
def buildSubgraph (g : Graph) (verts : List Nat) : Graph :=
  if verts.isEmpty then ⟨0, [0], [], [], []⟩
  else
    let acc := verts.foldl
      (fun (acc : List Nat × List Nat × List Int × List Int) gu =>
        let pushed := (List.range (g.degree gu)).foldl
          (fun (p : List Nat × List Int) k =>
            let gv := g.adj gu k
            match verts.findIdx? (fun x => decide (x = gv)) with
            | some lv => (p.1 ++ [lv], p.2 ++ [g.edgeWeight gu k])
            | none => p)
          (acc.2.1, acc.2.2.1)
        (acc.1 ++ [pushed.1.length], pushed.1, pushed.2,
          acc.2.2.2 ++ [g.vertexWeight gu]))
      ([0], [], [], [])
    { n := verts.length, xadj := acc.1, adjncy := acc.2.1,
      adjwgt := acc.2.2.1, vwgt := acc.2.2.2 }

/-- One stitch-back loop of `initial_partition`:
`part[global_v] = offset + sub_part[local_idx]` over the enumerated
side vertices (`offset` is `0` for the left side, `left_parts` for the
right side). -/
def scatter (base verts vals : List Nat) (offset : Nat) : List Nat :=
  verts.enum.foldl (fun p iv => p.set iv.2 (offset + vals.getD iv.1 0)) base

/-- `initial_partition`: recursive bisection; labels of the right half
are shifted by `left_parts` when stitching back. -/
def initialPartition (g : Graph) (nparts : Nat) : List Nat :=
  if nparts ≤ 1 ∨ g.n = 0 then List.replicate g.n 0
  else
    let bisect := initialBisection g
    if _h2 : nparts = 2 then bisect
    else
      let leftParts := nparts / 2
      let rightParts := nparts - leftParts
      let leftVerts := (List.range g.n).filter (fun u => bisect.getD u 0 = 0)
      let rightVerts := (List.range g.n).filter (fun u => bisect.getD u 0 = 1)
      let leftSub := buildSubgraph g leftVerts
      let rightSub := buildSubgraph g rightVerts
      let leftPart := initialPartition leftSub leftParts
      let rightPart := initialPartition rightSub rightParts
      scatter (scatter (List.replicate g.n 0) leftVerts leftPart 0)
        rightVerts rightPart leftParts
termination_by nparts
decreasing_by
  all_goals omega

end Partition

/-! ## Coarsener (`coarsen.rs`) -/

/-- `coarsen.rs::CoarsenLevel`: the coarse graph, the fine-to-coarse
vertex map, and the coarse vertex count. -/
structure CoarsenLevel where
  graph : Graph
  cmap : List Nat
  nc : Nat
deriving Repr, DecidableEq

namespace Coarsen

/-- One step of the heavy-edge matching loop of `coarsen_once` for
vertex `u`, over the state `(matched, cmap, nc)`: skip matched vertices,
otherwise pick the heaviest unmatched neighbor `v ≠ u` (first seen wins,
best weight starts at `-1`). -/
def matchStep (g : Graph) (st : List Bool × List Nat × Nat) (u : Nat) :
    List Bool × List Nat × Nat :=
  if st.1.getD u false then st
  else
    let best := (List.range (g.degree u)).foldl
      (fun (b : Option Nat × Int) k =>
        let v := g.adj u k
        if ¬ st.1.getD v false ∧ v ≠ u then
          let w := g.edgeWeight u k
          if b.2 < w then (some v, w) else b
        else b)
      (none, -1)
    match best.1 with
    | some v =>
      (((st.1.set u true).set v true), ((st.2.1.set u nc').set v nc'), nc' + 1)
    | none => (st.1.set u true, st.2.1.set u nc', nc' + 1)
where nc' := st.2.2

/-- Add `w` to the entry of key `v` in an association list, appending a
fresh entry when the key is absent — the content of
`adj_map[cu].entry(cv).or_insert(0) += w`. -/
def accAdd : List (Nat × Int) → Nat → Int → List (Nat × Int)
  | [], v, w => [(v, w)]
  | p :: ps, v, w =>
    if p.1 = v then (p.1, p.2 + w) :: ps else p :: accAdd ps v w

/-- Content of `adj_map[cu]` in `build_coarse_graph`: accumulated weights
toward every other coarse vertex, over all fine CSR entries of the fine
vertices mapped to `cu`, in program order. -/
def coarseAdjList (g : Graph) (cmap : List Nat) (cu : Nat) :
    List (Nat × Int) :=
  (List.range g.n).foldl
    (fun l u =>
      if cmap.getD u 0 = cu then
        (List.range (g.degree u)).foldl
          (fun l k =>
            let cv := cmap.getD (g.adj u k) 0
            if cv ≠ cu then accAdd l cv (g.edgeWeight u k) else l)
          l
      else l)
    []

/-- Ordered insertion by key. -/
def insKey (p : Nat × Int) : List (Nat × Int) → List (Nat × Int)
  | [] => [p]
  | q :: qs => if p.1 ≤ q.1 then p :: q :: qs else q :: insKey p qs

/-- `neighbors.sort_by_key(|&(v, _)| v)`: on the duplicate-free keys of a
drained map every comparison sort produces this unique key-sorted list. -/
def sortByKey (l : List (Nat × Int)) : List (Nat × Int) :=
  l.foldr insKey []

/-- `build_coarse_graph`.  `reorder cu` stands for the arbitrary
enumeration order of `adj_map[cu].drain()`: the Rust iteration presents
the map entries as some permutation of `coarseAdjList g cmap cu`, which
is then sorted by key.  The canonical instance is `reorder = fun _ l => l`. -/
def buildCoarseGraph (reorder : Nat → List (Nat × Int) → List (Nat × Int))
    (g : Graph) (cmap : List Nat) (nc : Nat) : Graph :=
  let cvwgt := (List.range g.n).foldl
    (fun cv u =>
      cv.set (cmap.getD u 0) (cv.getD (cmap.getD u 0) 0 + g.vertexWeight u))
    (List.replicate nc 0)
  let acc := (List.range nc).foldl
    (fun (acc : List Nat × List Nat × List Int) cu =>
      let pairs := sortByKey (reorder cu (coarseAdjList g cmap cu))
      let adjncy := acc.2.1 ++ pairs.map Prod.fst
      let adjwgt := acc.2.2 ++ pairs.map Prod.snd
      (acc.1 ++ [adjncy.length], adjncy, adjwgt))
    ([0], [], [])
  { n := nc, xadj := acc.1, adjncy := acc.2.1, adjwgt := acc.2.2,
    vwgt := cvwgt }

/-- `coarsen_once` under a drain order `reorder`. -/
def coarsenOnce (reorder : Nat → List (Nat × Int) → List (Nat × Int))
    (g : Graph) : CoarsenLevel :=
  let st := (List.range g.n).foldl (matchStep g)
    (List.replicate g.n false, List.replicate g.n 0, 0)
  { graph := buildCoarseGraph reorder g st.2.1 st.2.2,
    cmap := st.2.1, nc := st.2.2 }

theorem coarsenOnce_graph_n (reorder) (g : Graph) :
    (coarsenOnce reorder g).graph.n = (coarsenOnce reorder g).nc := rfl

/-- The `while current.n > threshold` loop of `multilevel_coarsen`,
under a per-level drain order.  Termination is by the pushed level's
strictly smaller vertex count (`level.nc < current.n`), exactly the
loop's no-progress break. -/
def multilevelAux (reorder : Nat → Nat → List (Nat × Int) → List (Nat × Int))
    (threshold : Nat) (lvl : Nat) (current : Graph) : List CoarsenLevel :=
  if _h : threshold < current.n then
    let level := coarsenOnce (reorder lvl) current
    if h2 : level.nc < current.n then
      level :: multilevelAux reorder threshold (lvl + 1) level.graph
    else []
  else []
termination_by current.n
decreasing_by
  rw [coarsenOnce_graph_n]; exact h2

end Coarsen

/-- `multilevel_coarsen` with the canonical (identity) drain order. -/
def multilevelCoarsen (g : Graph) (threshold : Nat) : List CoarsenLevel :=
  Coarsen.multilevelAux (fun _ _ l => l) threshold 0 g

/-! ## K-way driver (`kway.rs`) -/

namespace Kway

/-- Placeholder level for the (never exercised) out-of-range index read. -/
def defaultLevel : CoarsenLevel := ⟨⟨0, [0], [], [], []⟩, [], 0⟩

/-- The uncoarsening loop of `part_kway`: process stack indices
`i = levels.len() - 1` down to `0`; at index `i` the finer graph is
`levels[i-1].graph` (or the input graph at `i = 0`), the finer partition
is the projection through `levels[i].cmap`, refined by `fm_refine`. -/
def uncoarsenAux (g : Graph) (capOf : Int → Nat → Int) (nparts : Nat)
    (levels : List CoarsenLevel) : Nat → List Nat → List Nat
  | 0, part => part
  | i + 1, part =>
    let level := levels.getD i defaultLevel
    let fineG := if i = 0 then g else (levels.getD (i - 1) defaultLevel).graph
    let finePart := (List.range fineG.n).map
      (fun u => part.getD (level.cmap.getD u 0) 0)
    uncoarsenAux g capOf nparts levels i (fmRefine fineG capOf finePart nparts 10)

/-- `part_kway` under a drain order `reorder` (see `buildCoarseGraph`)
and the abstract balance cap `capOf` (see the header comment):
trivial branches for `n == 0`, `nparts <= 1` and `n <= nparts`, then
coarsen / initially partition / refine / uncoarsen. -/
def partKwayR (reorder : Nat → Nat → List (Nat × Int) → List (Nat × Int))
    (g : Graph) (capOf : Int → Nat → Int) (nparts : Nat) : Int × List Nat :=
  if g.n = 0 then (0, [])
  else if nparts ≤ 1 then (0, List.replicate g.n 0)
  else if g.n ≤ nparts then
    let part := List.range g.n
    (g.edgeCut part, part)
  else
    let levels := Coarsen.multilevelAux reorder (Nat.max 20 (nparts * 2)) 0 g
    let coarsest :=
      match levels.getLast? with
      | some l => l.graph
      | none => g
    let part0 := Partition.initialPartition coarsest nparts
    let part1 := fmRefine coarsest capOf part0 nparts 10
    let finalPart := uncoarsenAux g capOf nparts levels levels.length part1
    (g.edgeCut finalPart, finalPart)

end Kway

/-- `partition` = `part_kway` with the canonical drain order. -/
def partKway (g : Graph) (capOf : Int → Nat → Int) (nparts : Nat) :
    Int × List Nat :=
  Kway.partKwayR (fun _ _ l => l) g capOf nparts

/-! ## Generic list helpers -/

theorem getD_replicate_self {α : Type} (n i : Nat) (a : α) :
    (List.replicate n a).getD i a = a := by
  simp only [List.getD_eq_getElem?_getD, List.getElem?_replicate]
  split <;> simp

theorem getD_replicate_lt {α : Type} {n i : Nat} (a : α) (h : i < n) :
    (List.replicate n a).getD i a = a := getD_replicate_self n i a

/-! ## C10: `fm_refine` is a no-op on trivial inputs -/

/-- C10: `fm_refine(G, part, nparts, max_passes)` leaves the part vector
completely unchanged whenever `nparts <= 1` or `G.n == 0`, for every
contents of `part` and every `max_passes` (and every balance cap). -/
theorem fmRefine_noop (g : Graph) (capOf : Int → Nat → Int)
    (part : List Nat) (nparts maxPasses : Nat)
    (h : nparts ≤ 1 ∨ g.n = 0) :
    fmRefine g capOf part nparts maxPasses = part := by
  unfold fmRefine
  rcases h with h | h <;> simp [h]

/-- Witness for C10 at a concrete graph and part vector. -/
theorem fmRefine_noop_witness :
    fmRefine ⟨2, [0, 1, 2], [1, 0], [], []⟩ specCap [5, 7] 1 10 = [5, 7] :=
  fmRefine_noop _ _ _ _ _ (Or.inl (by decide))

/-! ## C6: which length mismatches `Graph` construction actually rejects -/

/-- C6 counterexample: construction succeeds although
`adjncy.len() = 0` disagrees with `xadj[n] = 5` — `Graph::new` checks
only `xadj.len() == n + 1`. -/
theorem graph_new_skips_adjncy_check :
    (Graph.new? 1 [0, 5] []).isSome = true ∧
      ([] : List Nat).length ≠ [0, 5].getD 1 0 := by decide

/-- C6 amended: construction fails exactly on `xadj.len() ≠ n + 1`
(`Graph::new`), a supplied `adjwgt` of length `≠ adjncy.len()`
(`with_adjwgt`) and a supplied `vwgt` of length `≠ n` (`with_vwgt`);
the consistency of `adjncy.len()` with `xadj[n]` is not checked. -/
theorem graph_ctor_checks (n : Nat) (xadj adjncy : List Nat) (g : Graph)
    (adjwgt vwgt : List Int) :
    ((Graph.new? n xadj adjncy).isSome ↔ xadj.length = n + 1) ∧
    ((g.withAdjwgt? adjwgt).isSome ↔ adjwgt.length = g.adjncy.length) ∧
    ((g.withVwgt? vwgt).isSome ↔ vwgt.length = g.n) := by
  unfold Graph.new? Graph.withAdjwgt? Graph.withVwgt?
  refine ⟨?_, ?_, ?_⟩ <;> (split <;> simp_all)

/-! ## C4: the returned cut equals `edge_cut` of the returned assignment -/

/-- C4: in every branch of `part_kway` (including `n == 0`, `k <= 1`,
`n <= k`), the returned cut equals `G.edge_cut` of the returned
assignment, for every graph, every part count and every balance cap. -/
theorem partKway_cut_eq (g : Graph) (capOf : Int → Nat → Int) (k : Nat) :
    (partKway g capOf k).1 = g.edgeCut (partKway g capOf k).2 := by
  unfold partKway Kway.partKwayR
  split
  · rename_i h
    simp [Graph.edgeCut, Graph.cutNum, h]
  · split
    · have hz : ∀ u, (List.replicate g.n 0).getD u 0 = 0 :=
        fun u => getD_replicate_self _ _ _
      show (0 : Int) = _
      rw [Graph.edgeCut, Graph.cutNum, Finset.sum_eq_zero, Int.zero_tdiv]
      intro u _
      rw [Finset.sum_eq_zero]
      intro k _
      simp [hz]
    · split <;> rfl

/-! ## C1: a part can end up empty although `n ≥ k` -/

/-- The path `0 – 1 – 2` with vertex weights `[1, 1, 10]`: a fully valid
CSR graph (symmetric, unit edge weights, non-negative vertex weights). -/
def skewGraph : Graph := ⟨3, [0, 1, 3, 4], [1, 0, 2, 1], [], [1, 1, 10]⟩

/-- C1 failing input: on `skewGraph` with `k = 2` (so `n = 3 ≥ k`),
`partition` returns the assignment `[0, 0, 0]` — part 1 has no vertex —
whatever value the balance cap takes: greedy growth swallows every
vertex before reaching half the skewed total weight from every candidate
seed (always yielding cut 0, the best), and refinement then has no
boundary vertex to move. -/
theorem partKway_empty_part_on_skewGraph (capOf : Int → Nat → Int) :
    partKway skewGraph capOf 2 = (0, [0, 0, 0]) := by
  have hml : Coarsen.multilevelAux (fun _ _ l => l) (Nat.max 20 (2 * 2)) 0
      skewGraph = [] := by
    rw [Coarsen.multilevelAux.eq_def]; decide
  have hip : Partition.initialPartition skewGraph 2 = [0, 0, 0] := by
    rw [Partition.initialPartition.eq_def]; decide
  show Kway.partKwayR (fun _ _ l => l) skewGraph capOf 2 = (0, [0, 0, 0])
  unfold Kway.partKwayR
  rw [if_neg (by decide), if_neg (by decide), if_neg (by decide)]
  simp only [hml, List.getLast?, hip]
  rfl

/-! ## C9: coarsening terminates with strictly shrinking levels -/

/-- Chain property of the (terminating, hence totally defined) coarsening
loop: every returned level's `nc` equals its graph's vertex count and is
strictly below the vertex count of the graph that was coarsened (the
previous level's graph, or the loop input at index 0). -/
theorem multilevelAux_chain
    (reorder : Nat → Nat → List (Nat × Int) → List (Nat × Int))
    (threshold : Nat) :
    ∀ (N lvl : Nat) (cur : Graph), cur.n ≤ N → ∀ i,
      i < (Coarsen.multilevelAux reorder threshold lvl cur).length →
      (((Coarsen.multilevelAux reorder threshold lvl cur).getD i
          Kway.defaultLevel).nc
        = ((Coarsen.multilevelAux reorder threshold lvl cur).getD i
            Kway.defaultLevel).graph.n)
      ∧ ((Coarsen.multilevelAux reorder threshold lvl cur).getD i
            Kway.defaultLevel).graph.n
        < (if i = 0 then cur.n
           else ((Coarsen.multilevelAux reorder threshold lvl cur).getD (i - 1)
              Kway.defaultLevel).graph.n) := by
  intro N
  induction N with
  | zero =>
    intro lvl cur hc i hi
    rw [Coarsen.multilevelAux.eq_def] at hi
    rw [dif_neg (by omega)] at hi
    simp at hi
  | succ N ih =>
    intro lvl cur hc i hi
    rw [Coarsen.multilevelAux.eq_def] at hi ⊢
    by_cases h1 : threshold < cur.n
    case neg =>
      rw [dif_neg h1] at hi
      simp at hi
    case pos =>
      rw [dif_pos h1] at hi ⊢
      set level := Coarsen.coarsenOnce (reorder lvl) cur with hlevel
      by_cases h2 : level.nc < cur.n
      case neg =>
        rw [dif_neg h2] at hi
        simp at hi
      case pos =>
        rw [dif_pos h2] at hi ⊢
        have hgn : level.graph.n = level.nc := Coarsen.coarsenOnce_graph_n _ _
        cases i with
        | zero =>
          rw [if_pos rfl]
          simp only [List.getD_cons_zero]
          exact ⟨hgn.symm, by omega⟩
        | succ j =>
          simp only [List.getD_cons_succ, List.length_cons] at hi ⊢
          have hj : j < (Coarsen.multilevelAux reorder threshold (lvl + 1)
              level.graph).length := by omega
          have := ih (lvl + 1) level.graph (by omega) j hj
          rcases this with ⟨e1, e2⟩
          refine ⟨e1, ?_⟩
          simp only [Nat.succ_ne_zero, if_neg, Nat.add_sub_cancel]
          cases j with
          | zero => simpa using e2
          | succ j' =>
            simp only [List.getD_cons_succ]
            simpa [Nat.succ_ne_zero] using e2

/-- C9: `multilevel_coarsen` terminates (it is a total function of this
development; its recursion is justified exactly by the strict decrease
below), and each level `i` of the returned stack has
`nc = graph.n` strictly smaller than the vertex count of the graph it
coarsened — `g.n` at `i = 0`, the previous level's graph otherwise — so
sizes strictly decrease along the stack and a no-progress level is never
pushed. -/
theorem multilevelCoarsen_strictly_decreasing (g : Graph) (threshold i : Nat)
    (hi : i < (multilevelCoarsen g threshold).length) :
    (((multilevelCoarsen g threshold).getD i Kway.defaultLevel).nc
      = ((multilevelCoarsen g threshold).getD i Kway.defaultLevel).graph.n)
    ∧ ((multilevelCoarsen g threshold).getD i Kway.defaultLevel).graph.n
      < (if i = 0 then g.n
         else ((multilevelCoarsen g threshold).getD (i - 1)
            Kway.defaultLevel).graph.n) :=
  multilevelAux_chain _ threshold g.n 0 g le_rfl i hi

/-- The two-vertex, one-edge graph used by several witnesses. -/
def edgeGraph2 : Graph := ⟨2, [0, 1, 2], [1, 0], [], []⟩

/-- Coarsening `edgeGraph2` with threshold 0 produces exactly one level
(the two vertices merge, then the singleton cannot shrink further). -/
theorem multilevelCoarsen_edgeGraph2_len :
    (multilevelCoarsen edgeGraph2 0).length = 1 := by
  have h1 : Coarsen.multilevelAux (fun _ _ l => l) 0 (0 + 1)
      (Coarsen.coarsenOnce
        ((fun (_ : Nat) (_ : Nat) (l : List (Nat × Int)) => l) 0)
        edgeGraph2).graph = [] := by
    rw [Coarsen.multilevelAux.eq_def]; decide
  unfold multilevelCoarsen
  rw [Coarsen.multilevelAux.eq_def]
  simp only [h1]
  decide

/-- Witness for C9 on `edgeGraph2`: the single returned level has
`nc = graph.n = 1 < 2 = g.n`. -/
theorem multilevelCoarsen_strictly_decreasing_witness :
    0 < (multilevelCoarsen edgeGraph2 0).length ∧
    (((multilevelCoarsen edgeGraph2 0).getD 0 Kway.defaultLevel).nc
      = ((multilevelCoarsen edgeGraph2 0).getD 0 Kway.defaultLevel).graph.n) ∧
    ((multilevelCoarsen edgeGraph2 0).getD 0 Kway.defaultLevel).graph.n
      < (if 0 = 0 then edgeGraph2.n
         else ((multilevelCoarsen edgeGraph2 0).getD (0 - 1)
            Kway.defaultLevel).graph.n) := by
  have hi : 0 < (multilevelCoarsen edgeGraph2 0).length := by
    rw [multilevelCoarsen_edgeGraph2_len]; decide
  exact ⟨hi, multilevelCoarsen_strictly_decreasing edgeGraph2 0 0 hi⟩

/-! ## Generic fold/list lemmas -/

theorem foldl_preserve {α β : Type} (f : α → β → α) (P : α → Prop) :
    ∀ (l : List β) (a : α), P a → (∀ x, P x → ∀ b ∈ l, P (f x b)) →
      P (l.foldl f a)
  | [], a, ha, _ => ha
  | b :: l, a, ha, h =>
    foldl_preserve f P l (f a b) (h a ha b (List.mem_cons_self b l))
      (fun x hx c hc => h x hx c (List.mem_cons_of_mem b hc))

theorem getD_mem_or_eq {α : Type} (l : List α) (i : Nat) (d : α) :
    l.getD i d ∈ l ∨ l.getD i d = d := by
  rcases Nat.lt_or_ge i l.length with h | h
  · left
    rw [List.getD_eq_getElem l d h]
    exact List.getElem_mem h
  · right
    exact List.getD_eq_default l d h

/-- Everything true of a move candidate returned by `findBest`. -/
def Cand (g : Graph) (part : List Nat) (pw : List Int) (locked : List Bool)
    (nparts : Nat) (cap : Int) (u dst : Nat) (gain : Int) : Prop :=
  u < g.n ∧ dst < nparts ∧ locked.getD u false = false ∧
  dst ≠ part.getD u 0 ∧
  (Refine.extInt g part nparts u).1.getD dst 0 ≠ 0 ∧
  pw.getD dst 0 + g.vertexWeight u ≤ cap ∧
  gain = (Refine.extInt g part nparts u).1.getD dst 0
    - (Refine.extInt g part nparts u).2

theorem scanTo_valid (g : Graph) (part : List Nat) (pw : List Int)
    (locked : List Bool) (nparts : Nat) (cap : Int) (u : Nat)
    (hu : u < g.n) (hl : locked.getD u false = false)
    (best : Option (Nat × Nat × Int))
    (hb : ∀ u' d' g', best = some (u', d', g') →
      Cand g part pw locked nparts cap u' d' g') :
    ∀ u' d' g',
      Refine.scanTo g pw cap nparts u (part.getD u 0)
        (Refine.extInt g part nparts u).1 (Refine.extInt g part nparts u).2
        best = some (u', d', g') →
      Cand g part pw locked nparts cap u' d' g' := by
  unfold Refine.scanTo
  have := foldl_preserve
    (fun best dst =>
      if dst = part.getD u 0 ∨ (Refine.extInt g part nparts u).1.getD dst 0 = 0
      then best
      else if cap < pw.getD dst 0 + g.vertexWeight u then best
      else
        let gain := (Refine.extInt g part nparts u).1.getD dst 0
          - (Refine.extInt g part nparts u).2
        if Refine.better gain best then some (u, dst, gain) else best)
    (fun best => ∀ u' d' g', best = some (u', d', g') →
      Cand g part pw locked nparts cap u' d' g')
    (List.range nparts) best hb ?_
  · intro u' d' g' he
    exact this u' d' g' he
  · intro x hx dst hdst
    have hdn : dst < nparts := List.mem_range.mp hdst
    intro u' d' g' he
    simp only at he
    split at he
    · exact hx _ _ _ he
    · rename_i hcond
      split at he
      · exact hx _ _ _ he
      · rename_i hbal
        split at he
        · rcases he with ⟨⟩
          refine ⟨hu, hdn, hl, ?_, ?_, by omega, rfl⟩
          · intro hc; exact hcond (Or.inl hc)
          · intro h0; exact hcond (Or.inr h0)
        · exact hx _ _ _ he

theorem findBest_valid (g : Graph) (part : List Nat) (pw : List Int)
    (locked : List Bool) (nparts : Nat) (cap : Int) (u' d' : Nat) (g' : Int)
    (h : Refine.findBest g part pw locked nparts cap = some (u', d', g')) :
    Cand g part pw locked nparts cap u' d' g' := by
  unfold Refine.findBest at h
  refine foldl_preserve _
    (fun best => ∀ a b c, best = some (a, b, c) →
      Cand g part pw locked nparts cap a b c)
    (List.range g.n) none (by simp) ?_ u' d' g' h
  intro x hx u hu
  have hun : u < g.n := List.mem_range.mp hu
  intro a b c he
  simp only at he
  split at he
  · exact hx _ _ _ he
  · rename_i hlock
    split at he
    · refine scanTo_valid g part pw locked nparts cap u hun ?_ x hx a b c he
      simpa using hlock
    · exact hx _ _ _ he

theorem fmIter_length (g : Graph) (nparts : Nat) (cap : Int) :
    ∀ (fuel : Nat) (part : List Nat) (pw : List Int) (locked : List Bool)
      (improved : Bool),
      (Refine.fmIter g nparts cap fuel part pw locked improved).1.length
        = part.length := by
  intro fuel
  induction fuel with
  | zero => intros; rfl
  | succ n ih =>
    intro part pw locked improved
    simp only [Refine.fmIter]
    split
    · rename_i u dst gain heq
      split
      · rw [ih]
        simp
      · rfl
    · rfl

theorem fmIter_bounded (g : Graph) (nparts : Nat) (cap : Int) :
    ∀ (fuel : Nat) (part : List Nat) (pw : List Int) (locked : List Bool)
      (improved : Bool),
      (∀ p ∈ part, p < nparts) →
      ∀ p ∈ (Refine.fmIter g nparts cap fuel part pw locked improved).1,
        p < nparts := by
  intro fuel
  induction fuel with
  | zero => intro part pw locked improved hb; exact hb
  | succ n ih =>
    intro part pw locked improved hb
    simp only [Refine.fmIter]
    split
    · rename_i u dst gain heq
      split
      · refine ih _ _ _ _ ?_
        intro p hp
        rcases List.mem_or_eq_of_mem_set hp with h | h
        · exact hb p h
        · subst h
          exact (findBest_valid _ _ _ _ _ _ _ _ _ heq).2.1
      · exact hb
    · exact hb

theorem fmPass_length (g : Graph) (capOf : Int → Nat → Int)
    (part : List Nat) (nparts : Nat) :
    (Refine.fmPass g capOf part nparts).1.length = part.length := by
  unfold Refine.fmPass
  exact fmIter_length _ _ _ _ _ _ _ _

theorem fmPass_bounded (g : Graph) (capOf : Int → Nat → Int)
    (part : List Nat) (nparts : Nat) (hb : ∀ p ∈ part, p < nparts) :
    ∀ p ∈ (Refine.fmPass g capOf part nparts).1, p < nparts := by
  unfold Refine.fmPass
  exact fmIter_bounded _ _ _ _ _ _ _ _ hb

theorem fmRefineLoop_length (g : Graph) (capOf : Int → Nat → Int)
    (nparts : Nat) :
    ∀ (passes : Nat) (part : List Nat),
      (Refine.fmRefineLoop g capOf nparts passes part).length = part.length := by
  intro passes
  induction passes with
  | zero => intro part; rfl
  | succ n ih =>
    intro part
    simp only [Refine.fmRefineLoop]
    split
    · rw [ih, fmPass_length]
    · rw [fmPass_length]

theorem fmRefineLoop_bounded (g : Graph) (capOf : Int → Nat → Int)
    (nparts : Nat) :
    ∀ (passes : Nat) (part : List Nat), (∀ p ∈ part, p < nparts) →
      ∀ p ∈ Refine.fmRefineLoop g capOf nparts passes part, p < nparts := by
  intro passes
  induction passes with
  | zero => intro part hb; exact hb
  | succ n ih =>
    intro part hb
    simp only [Refine.fmRefineLoop]
    split
    · exact ih _ (fmPass_bounded g capOf part nparts hb)
    · exact fmPass_bounded g capOf part nparts hb

theorem fmRefine_length (g : Graph) (capOf : Int → Nat → Int)
    (part : List Nat) (nparts maxPasses : Nat) :
    (fmRefine g capOf part nparts maxPasses).length = part.length := by
  unfold fmRefine
  split
  · rfl
  · exact fmRefineLoop_length _ _ _ _ _

theorem fmRefine_bounded (g : Graph) (capOf : Int → Nat → Int)
    (part : List Nat) (nparts maxPasses : Nat) (hb : ∀ p ∈ part, p < nparts) :
    ∀ p ∈ fmRefine g capOf part nparts maxPasses, p < nparts := by
  unfold fmRefine
  split
  · exact hb
  · exact fmRefineLoop_bounded _ _ _ _ _ hb

theorem length_foldl_set {β : Type} (f v : β → Nat) :
    ∀ (l : List β) (init : List Nat),
      (l.foldl (fun p x => p.set (f x) (v x)) init).length = init.length := by
  intro l
  induction l with
  | nil => intro init; rfl
  | cons b l ih =>
    intro init
    simp only [List.foldl_cons]
    rw [ih, List.length_set]

theorem mem_foldl_set {β : Type} (f v : β → Nat) :
    ∀ (l : List β) (init : List Nat),
      ∀ q ∈ l.foldl (fun p x => p.set (f x) (v x)) init,
        q ∈ init ∨ ∃ x ∈ l, q = v x := by
  intro l
  induction l with
  | nil => intro init q hq; exact Or.inl hq
  | cons b l ih =>
    intro init q hq
    simp only [List.foldl_cons] at hq
    rcases ih _ q hq with h | ⟨x, hx, he⟩
    · rcases List.mem_or_eq_of_mem_set h with h | h
      · exact Or.inl h
      · exact Or.inr ⟨b, List.mem_cons_self b l, h⟩
    · exact Or.inr ⟨x, List.mem_cons_of_mem b hx, he⟩

theorem growLoop_length (g : Graph) (target : Int) :
    ∀ (fuel : Nat) (part : List Nat) (inPart0 : List Bool) (w0 : Int),
      (Partition.growLoop g target fuel part inPart0 w0).length
        = part.length := by
  intro fuel
  induction fuel with
  | zero => intros; rfl
  | succ n ih =>
    intro part inPart0 w0
    simp only [Partition.growLoop]
    split
    · rfl
    · split
      · split
        · rw [ih, List.length_set]
        · rfl
      · rfl

theorem growLoop_bounded (g : Graph) (target : Int) :
    ∀ (fuel : Nat) (part : List Nat) (inPart0 : List Bool) (w0 : Int),
      (∀ p ∈ part, p ≤ 1) →
      ∀ p ∈ Partition.growLoop g target fuel part inPart0 w0, p ≤ 1 := by
  intro fuel
  induction fuel with
  | zero => intro part _ _ hb; exact hb
  | succ n ih =>
    intro part inPart0 w0 hb
    simp only [Partition.growLoop]
    split
    · exact hb
    · split
      · split
        · refine ih _ _ _ ?_
          intro p hp
          rcases List.mem_or_eq_of_mem_set hp with h | h
          · exact hb p h
          · omega
        · exact hb
      · exact hb

theorem growBisection_length (g : Graph) (seed : Nat) :
    (Partition.growBisection g seed).length = g.n := by
  unfold Partition.growBisection
  rw [growLoop_length, List.length_set, List.length_replicate]

theorem growBisection_bounded (g : Graph) (seed : Nat) :
    ∀ p ∈ Partition.growBisection g seed, p ≤ 1 := by
  unfold Partition.growBisection
  refine growLoop_bounded _ _ _ _ _ _ ?_
  intro p hp
  rcases List.mem_or_eq_of_mem_set hp with h | h
  · have := List.eq_of_mem_replicate h
    omega
  · omega

theorem initialBisection_spec (g : Graph) :
    (Partition.initialBisection g).length = g.n ∧
      ∀ p ∈ Partition.initialBisection g, p ≤ 1 := by
  have key : ∀ (cands : List Nat) (acc : Option (Int × List Nat)),
      (∀ c p, acc = some (c, p) → p.length = g.n ∧ ∀ q ∈ p, q ≤ 1) →
      ∀ c p, (cands.foldl
        (fun best seed =>
          let p := Partition.growBisection g seed
          let c := g.edgeCut p
          match best with
          | none => some (c, p)
          | some (bc, _) => if c < bc then some (c, p) else best)
        acc) = some (c, p) → p.length = g.n ∧ ∀ q ∈ p, q ≤ 1 := by
    intro cands
    induction cands with
    | nil => intro acc hacc; exact hacc
    | cons s cs ih =>
      intro acc hacc
      simp only [List.foldl_cons]
      refine ih _ ?_
      intro c p he
      simp only at he
      split at he
      · rcases he with ⟨⟩
        exact ⟨growBisection_length g s, growBisection_bounded g s⟩
      · split at he
        · rcases he with ⟨⟩
          exact ⟨growBisection_length g s, growBisection_bounded g s⟩
        · exact hacc _ _ he
  unfold Partition.initialBisection
  simp only []
  by_cases h0 : g.n = 0
  · rw [if_pos h0]
    simp [h0]
  · rw [if_neg h0]
    by_cases h1 : g.n = 1
    · rw [if_pos h1]
      constructor
      · simp [h1]
      · intro p hp
        simp at hp
        omega
    · rw [if_neg h1]
      constructor
      · split
        · rename_i c p hsome
          exact (key _ _ (by simp) c p hsome).1
        · simp
      · split
        · rename_i c p hsome
          exact (key _ _ (by simp) c p hsome).2
        · intro p hp
          have := List.eq_of_mem_replicate hp
          omega

theorem scatter_length (base verts vals : List Nat) (offset : Nat) :
    (Partition.scatter base verts vals offset).length = base.length := by
  unfold Partition.scatter
  exact length_foldl_set (fun iv : Nat × Nat => iv.2)
    (fun iv : Nat × Nat => offset + vals.getD iv.1 0) verts.enum base

theorem mem_scatter (base verts vals : List Nat) (offset : Nat) :
    ∀ q ∈ Partition.scatter base verts vals offset,
      q ∈ base ∨ ∃ i, q = offset + vals.getD i 0 := by
  intro q hq
  rcases mem_foldl_set (fun iv : Nat × Nat => iv.2)
      (fun iv : Nat × Nat => offset + vals.getD iv.1 0) verts.enum base q hq
    with h | ⟨x, _, he⟩
  · exact Or.inl h
  · exact Or.inr ⟨x.1, he⟩

theorem getD_lt_of_all_lt {l : List Nat} {k : Nat} (h : ∀ p ∈ l, p < k)
    (hk : 1 ≤ k) (i : Nat) : l.getD i 0 < k := by
  rcases getD_mem_or_eq l i 0 with hm | hm
  · exact h _ hm
  · rw [hm]; omega

theorem initialPartition_spec :
    ∀ (nparts : Nat) (g : Graph),
      (Partition.initialPartition g nparts).length = g.n ∧
      ∀ p ∈ Partition.initialPartition g nparts, p < Nat.max nparts 1 := by
  intro nparts
  induction nparts using Nat.strong_induction_on with
  | _ nparts ih =>
    intro g
    rw [Partition.initialPartition.eq_def]
    split
    · constructor
      · simp
      · intro p hp
        have h0 := List.eq_of_mem_replicate hp
        have h1 : 1 ≤ Nat.max nparts 1 := Nat.le_max_right _ _
        omega
    · rename_i hcond
      split
      · rename_i h2
        rcases initialBisection_spec g with ⟨hl, hb⟩
        subst h2
        refine ⟨hl, fun p hp => ?_⟩
        have := hb p hp
        have hm : Nat.max 2 1 = 2 := rfl
        omega
      · rename_i h2
        have h3 : 3 ≤ nparts := by omega
        have hmax : Nat.max nparts 1 = nparts := Nat.max_eq_left (by omega)
        have h4 : ∀ (G : Graph) (i : Nat),
            (Partition.initialPartition G (nparts / 2)).getD i 0
              < nparts / 2 := by
          intro G i
          refine getD_lt_of_all_lt ?_ (by omega) i
          intro p hp
          have hlt := (ih (nparts / 2) (by omega) G).2 p hp
          have hq : Nat.max (nparts / 2) 1 = nparts / 2 :=
            Nat.max_eq_left (by omega)
          omega
        have h5 : ∀ (G : Graph) (i : Nat),
            (Partition.initialPartition G (nparts - nparts / 2)).getD i 0
              < nparts - nparts / 2 := by
          intro G i
          refine getD_lt_of_all_lt ?_ (by omega) i
          intro p hp
          have hlt := (ih (nparts - nparts / 2) (by omega) G).2 p hp
          have hq : Nat.max (nparts - nparts / 2) 1 = nparts - nparts / 2 :=
            Nat.max_eq_left (by omega)
          omega
        simp only []
        constructor
        · rw [scatter_length, scatter_length, List.length_replicate]
        · intro p hp
          rw [hmax]
          rcases mem_scatter _ _ _ _ p hp with h | ⟨i, he⟩
          · rcases mem_scatter _ _ _ _ p h with h' | ⟨j, he'⟩
            · have := List.eq_of_mem_replicate h'
              omega
            · rw [he']
              have := h4 (Partition.buildSubgraph g
                ((List.range g.n).filter
                  (fun u => decide ((Partition.initialBisection g).getD u 0 = 0)))) j
              omega
          · rw [he]
            have := h5 (Partition.buildSubgraph g
              ((List.range g.n).filter
                (fun u => decide ((Partition.initialBisection g).getD u 0 = 1)))) i
            omega

theorem uncoarsenAux_length (g : Graph) (capOf : Int → Nat → Int)
    (nparts : Nat) (levels : List CoarsenLevel) :
    ∀ (i : Nat) (part : List Nat), 1 ≤ i →
      (Kway.uncoarsenAux g capOf nparts levels i part).length = g.n := by
  intro i
  induction i with
  | zero => intro part h; omega
  | succ j ih =>
    intro part _
    cases j with
    | zero =>
      simp only [Kway.uncoarsenAux]
      rw [fmRefine_length]
      simp
    | succ j' =>
      simp only [Kway.uncoarsenAux]
      exact ih _ (by omega)

theorem uncoarsenAux_bounded (g : Graph) (capOf : Int → Nat → Int)
    (nparts : Nat) (levels : List CoarsenLevel) (hk : 1 ≤ nparts) :
    ∀ (i : Nat) (part : List Nat), (∀ p ∈ part, p < nparts) →
      ∀ p ∈ Kway.uncoarsenAux g capOf nparts levels i part, p < nparts := by
  intro i
  induction i with
  | zero => intro part hb; exact hb
  | succ j ih =>
    intro part hb
    simp only [Kway.uncoarsenAux]
    refine ih _ ?_
    refine fmRefine_bounded _ _ _ _ _ ?_
    intro p hp
    rcases List.mem_map.mp hp with ⟨u, _, he⟩
    subst he
    exact getD_lt_of_all_lt hb hk _

theorem partKway_output_valid (g : Graph) (capOf : Int → Nat → Int) (k : Nat)
    (hk : 1 ≤ k) :
    (partKway g capOf k).2.length = g.n ∧
      ∀ p ∈ (partKway g capOf k).2, p < k := by
  unfold partKway Kway.partKwayR
  split
  · rename_i h
    simp [h]
  · split
    · rename_i h hk1
      constructor
      · simp
      · intro p hp
        have := List.eq_of_mem_replicate hp
        omega
    · split
      · constructor
        · simp
        · intro p hp
          rename_i hnk
          have := List.mem_range.mp hp
          omega
      · rename_i h hk1 hnk
        simp only []
        have hb0 : ∀ (G : Graph),
            ∀ p ∈ Partition.initialPartition G k, p < k := by
          intro G p hp
          have := (initialPartition_spec k G).2 p hp
          have hm : Nat.max k 1 = k := Nat.max_eq_left (by omega)
          omega
        cases hL : (Coarsen.multilevelAux (fun _ _ l => l)
            (Nat.max 20 (k * 2)) 0 g).getLast? with
        | none =>
          have hnil : Coarsen.multilevelAux (fun _ _ l => l)
              (Nat.max 20 (k * 2)) 0 g = [] := by
            rcases hE : Coarsen.multilevelAux (fun _ _ l => l)
                (Nat.max 20 (k * 2)) 0 g with _ | ⟨a, l⟩
            · rfl
            · rw [hE] at hL
              simp [List.getLast?] at hL
          simp only [hL, hnil, List.length_nil]
          constructor
          · show (Kway.uncoarsenAux g capOf k [] 0 _).length = g.n
            simp only [Kway.uncoarsenAux]
            rw [fmRefine_length, (initialPartition_spec k g).1]
          · show ∀ p ∈ Kway.uncoarsenAux g capOf k [] 0 _, p < k
            simp only [Kway.uncoarsenAux]
            exact fmRefine_bounded _ _ _ _ _ (hb0 g)
        | some l =>
          have hne : Coarsen.multilevelAux (fun _ _ l => l)
              (Nat.max 20 (k * 2)) 0 g ≠ [] := by
            intro hE
            rw [hE] at hL
            simp [List.getLast?] at hL
          have hlen1 : 1 ≤ (Coarsen.multilevelAux (fun _ _ l => l)
              (Nat.max 20 (k * 2)) 0 g).length := by
            rcases hE : Coarsen.multilevelAux (fun _ _ l => l)
                (Nat.max 20 (k * 2)) 0 g with _ | ⟨a, t⟩
            · exact absurd hE hne
            · simp
          simp only [hL]
          constructor
          · exact uncoarsenAux_length _ _ _ _ _ _ hlen1
          · exact uncoarsenAux_bounded _ _ _ _ (by omega) _ _
              (fmRefine_bounded _ _ _ _ _ (hb0 l.graph))

/-- C3: for every graph and every `k ≥ 1` (and every balance cap), the
assignment returned by `partition(G, k)` has length exactly `G.n` and
every entry is a part ID strictly below `k`. -/
theorem partKway_output_len_range (g : Graph) (capOf : Int → Nat → Int)
    (k : Nat) (hk : 1 ≤ k) :
    (partKway g capOf k).2.length = g.n ∧
      ∀ p ∈ (partKway g capOf k).2, p < k :=
  partKway_output_valid g capOf k hk

/-- Witness for C3 on the two-vertex edge graph with `k = 2`. -/
theorem partKway_output_len_range_witness :
    1 ≤ 2 ∧ ((partKway edgeGraph2 specCap 2).2.length = edgeGraph2.n ∧
      ∀ p ∈ (partKway edgeGraph2 specCap 2).2, p < 2) :=
  ⟨by decide, partKway_output_len_range edgeGraph2 specCap 2 (by decide)⟩

/-! ## C8: determinism (drain-order independence) -/

theorem mem_map_fst_accAdd (v : Nat) (w : Int) :
    ∀ (l : List (Nat × Int)) (a : Nat),
      a ∈ (Coarsen.accAdd l v w).map Prod.fst ↔
        a ∈ l.map Prod.fst ∨ a = v := by
  intro l
  induction l with
  | nil => intro a; simp [Coarsen.accAdd]
  | cons p ps ih =>
    intro a
    simp only [Coarsen.accAdd]
    split
    · rename_i he
      simp only [List.map_cons, List.mem_cons]
      constructor
      · rintro (h | h)
        · exact Or.inl (Or.inl h)
        · exact Or.inl (Or.inr h)
      · rintro ((h | h) | h)
        · exact Or.inl h
        · exact Or.inr h
        · subst h; exact Or.inl he.symm
    · simp only [List.map_cons, List.mem_cons, ih]
      tauto

theorem nodup_map_fst_accAdd (v : Nat) (w : Int) :
    ∀ (l : List (Nat × Int)), (l.map Prod.fst).Nodup →
      ((Coarsen.accAdd l v w).map Prod.fst).Nodup := by
  intro l
  induction l with
  | nil => intro _; simp [Coarsen.accAdd]
  | cons p ps ih =>
    intro hnd
    simp only [List.map_cons, List.nodup_cons] at hnd
    simp only [Coarsen.accAdd]
    split
    · rename_i he
      simp only [List.map_cons, List.nodup_cons]
      exact hnd
    · rename_i he
      simp only [List.map_cons, List.nodup_cons]
      refine ⟨?_, ih hnd.2⟩
      rw [mem_map_fst_accAdd]
      rintro (h | h)
      · exact hnd.1 h
      · exact he (by rw [h])

theorem nodup_keys_coarseAdjList (g : Graph) (cmap : List Nat) (cu : Nat) :
    ((Coarsen.coarseAdjList g cmap cu).map Prod.fst).Nodup := by
  unfold Coarsen.coarseAdjList
  refine foldl_preserve _
    (fun l : List (Nat × Int) => (l.map Prod.fst).Nodup) _ _ (by simp) ?_
  intro x hx u _
  split
  · refine foldl_preserve _
      (fun l : List (Nat × Int) => (l.map Prod.fst).Nodup) _ _ hx ?_
    intro y hy k _
    simp only
    split
    · exact nodup_map_fst_accAdd _ _ _ hy
    · exact hy
  · exact hx

theorem mem_insKey (p : Nat × Int) :
    ∀ (l : List (Nat × Int)) (x : Nat × Int),
      x ∈ Coarsen.insKey p l ↔ x = p ∨ x ∈ l := by
  intro l
  induction l with
  | nil => intro x; simp [Coarsen.insKey]
  | cons q qs ih =>
    intro x
    simp only [Coarsen.insKey]
    split
    · simp only [List.mem_cons]
      try tauto
    · simp only [List.mem_cons, ih]
      try tauto

theorem insKey_perm (p : Nat × Int) :
    ∀ (l : List (Nat × Int)), (Coarsen.insKey p l).Perm (p :: l) := by
  intro l
  induction l with
  | nil => simp [Coarsen.insKey]
  | cons q qs ih =>
    simp only [Coarsen.insKey]
    split
    · exact List.Perm.refl _
    · exact (ih.cons q).trans (List.Perm.swap p q qs)

theorem sortByKey_perm :
    ∀ (l : List (Nat × Int)), (Coarsen.sortByKey l).Perm l := by
  intro l
  induction l with
  | nil => exact List.Perm.refl _
  | cons p ps ih =>
    show (Coarsen.insKey p (Coarsen.sortByKey ps)).Perm (p :: ps)
    exact (insKey_perm p _).trans (ih.cons p)

theorem insKey_sorted (p : Nat × Int) :
    ∀ (l : List (Nat × Int)),
      List.Pairwise (fun a b : Nat × Int => a.1 ≤ b.1) l →
      List.Pairwise (fun a b : Nat × Int => a.1 ≤ b.1) (Coarsen.insKey p l) := by
  intro l
  induction l with
  | nil => intro _; simp [Coarsen.insKey]
  | cons q qs ih =>
    intro hs
    rcases List.pairwise_cons.mp hs with ⟨hq, hqs⟩
    simp only [Coarsen.insKey]
    split
    · rename_i hle
      refine List.pairwise_cons.mpr ⟨?_, hs⟩
      intro b hb
      rcases List.mem_cons.mp hb with h | h
      · subst h; exact hle
      · exact le_trans hle (hq b h)
    · rename_i hgt
      refine List.pairwise_cons.mpr ⟨?_, ih hqs⟩
      intro b hb
      rcases (mem_insKey p qs b).mp hb with h | h
      · subst h; omega
      · exact hq b h

theorem sortByKey_sorted :
    ∀ (l : List (Nat × Int)),
      List.Pairwise (fun a b : Nat × Int => a.1 ≤ b.1)
        (Coarsen.sortByKey l) := by
  intro l
  induction l with
  | nil => simp [Coarsen.sortByKey]
  | cons p ps ih => exact insKey_sorted p _ ih

theorem sorted_nodup_keys_unique (l₁ l₂ : List (Nat × Int))
    (hp : l₁.Perm l₂)
    (hs₁ : List.Pairwise (fun a b : Nat × Int => a.1 ≤ b.1) l₁)
    (hs₂ : List.Pairwise (fun a b : Nat × Int => a.1 ≤ b.1) l₂)
    (hnd : (l₁.map Prod.fst).Nodup) : l₁ = l₂ := by
  haveI : IsAntisymm (Nat × Int) (fun a b : Nat × Int => a.1 < b.1) :=
    ⟨fun a b h1 h2 => absurd h2 (by omega)⟩
  have hnd₂ : (l₂.map Prod.fst).Nodup := (hp.map Prod.fst).nodup hnd
  have hne₁ : List.Pairwise (fun a b : Nat × Int => a.1 ≠ b.1) l₁ :=
    List.pairwise_map.mp hnd
  have hne₂ : List.Pairwise (fun a b : Nat × Int => a.1 ≠ b.1) l₂ :=
    List.pairwise_map.mp hnd₂
  refine List.eq_of_perm_of_sorted (r := fun a b : Nat × Int => a.1 < b.1)
    hp ?_ ?_
  · exact (hs₁.and hne₁).imp (fun h => by omega)
  · exact (hs₂.and hne₂).imp (fun h => by omega)

theorem sortByKey_perm_inv (l l' : List (Nat × Int)) (hp : l'.Perm l)
    (hnd : (l.map Prod.fst).Nodup) :
    Coarsen.sortByKey l' = Coarsen.sortByKey l := by
  refine sorted_nodup_keys_unique _ _ ?_ (sortByKey_sorted l')
    (sortByKey_sorted l) ?_
  · exact (sortByKey_perm l').trans (hp.trans (sortByKey_perm l).symm)
  · exact ((sortByKey_perm l').map Prod.fst).symm.nodup
      ((hp.map Prod.fst).symm.nodup hnd)

theorem buildCoarseGraph_reorder_eq
    (reorder : Nat → List (Nat × Int) → List (Nat × Int))
    (h : ∀ cu l, (reorder cu l).Perm l) (g : Graph) (cmap : List Nat)
    (nc : Nat) :
    Coarsen.buildCoarseGraph reorder g cmap nc
      = Coarsen.buildCoarseGraph (fun _ l => l) g cmap nc := by
  unfold Coarsen.buildCoarseGraph
  have hp : ∀ cu, Coarsen.sortByKey (reorder cu (Coarsen.coarseAdjList g cmap cu))
      = Coarsen.sortByKey (Coarsen.coarseAdjList g cmap cu) := by
    intro cu
    exact sortByKey_perm_inv _ _ (h cu _) (nodup_keys_coarseAdjList g cmap cu)
  simp only [hp]

theorem coarsenOnce_reorder_eq
    (reorder : Nat → List (Nat × Int) → List (Nat × Int))
    (h : ∀ cu l, (reorder cu l).Perm l) (g : Graph) :
    Coarsen.coarsenOnce reorder g = Coarsen.coarsenOnce (fun _ l => l) g := by
  unfold Coarsen.coarsenOnce
  simp only [buildCoarseGraph_reorder_eq reorder h]

theorem multilevelAux_reorder_eq
    (reorder : Nat → Nat → List (Nat × Int) → List (Nat × Int))
    (h : ∀ lvl cu l, (reorder lvl cu l).Perm l) (threshold : Nat) :
    ∀ (N lvl lvl' : Nat) (cur : Graph), cur.n ≤ N →
      Coarsen.multilevelAux reorder threshold lvl cur
        = Coarsen.multilevelAux (fun _ _ l => l) threshold lvl' cur := by
  intro N
  induction N with
  | zero =>
    intro lvl lvl' cur hc
    rw [Coarsen.multilevelAux.eq_def, Coarsen.multilevelAux.eq_def]
    rw [dif_neg (by omega), dif_neg (by omega)]
  | succ N ih =>
    intro lvl lvl' cur hc
    rw [Coarsen.multilevelAux.eq_def, Coarsen.multilevelAux.eq_def]
    by_cases h1 : threshold < cur.n
    · rw [dif_pos h1, dif_pos h1]
      have hco : Coarsen.coarsenOnce (reorder lvl) cur
          = Coarsen.coarsenOnce ((fun (_ _ : Nat) (l : List (Nat × Int)) => l) lvl') cur :=
        coarsenOnce_reorder_eq (reorder lvl) (h lvl) cur
      simp only [hco]
      by_cases h2 : (Coarsen.coarsenOnce
          ((fun (_ _ : Nat) (l : List (Nat × Int)) => l) lvl') cur).nc < cur.n
      · rw [dif_pos h2, dif_pos h2]
        have hrec := ih (lvl + 1) (lvl' + 1)
          (Coarsen.coarsenOnce ((fun (_ _ : Nat) (l : List (Nat × Int)) => l) lvl') cur).graph
          (by rw [Coarsen.coarsenOnce_graph_n]; omega)
        rw [hrec]
      · rw [dif_neg h2, dif_neg h2]
    · rw [dif_neg h1, dif_neg h1]

theorem partKwayR_reorder_eq
    (reorder : Nat → Nat → List (Nat × Int) → List (Nat × Int))
    (h : ∀ lvl cu l, (reorder lvl cu l).Perm l) (g : Graph)
    (capOf : Int → Nat → Int) (k : Nat) :
    Kway.partKwayR reorder g capOf k = partKway g capOf k := by
  unfold partKway Kway.partKwayR
  have hml := multilevelAux_reorder_eq reorder h (Nat.max 20 (k * 2)) g.n 0 0 g le_rfl
  rw [hml]

/-- C8: `partition` is a deterministic function of `(G, k)`.  The only
ambient dependence in the code is the enumeration order of
`HashMap::drain` in `build_coarse_graph`; it is modelled as an arbitrary
per-level, per-coarse-vertex permutation of the accumulated adjacency
pairs, and any two such orders yield identical `(cut, assignment)`
results, because the drained pairs have pairwise-distinct keys and are
immediately sorted by key.  Everything else in the pipeline is a pure
function of the input. -/
theorem partKway_deterministic (g : Graph) (capOf : Int → Nat → Int)
    (k : Nat) (r₁ r₂ : Nat → Nat → List (Nat × Int) → List (Nat × Int))
    (h₁ : ∀ lvl cu l, (r₁ lvl cu l).Perm l)
    (h₂ : ∀ lvl cu l, (r₂ lvl cu l).Perm l) :
    Kway.partKwayR r₁ g capOf k = Kway.partKwayR r₂ g capOf k := by
  rw [partKwayR_reorder_eq r₁ h₁ g capOf k, partKwayR_reorder_eq r₂ h₂ g capOf k]

/-- Witness for C8: reversed drain order versus identity drain order on
a concrete graph. -/
theorem partKway_deterministic_witness :
    Kway.partKwayR (fun _ _ l => l.reverse) edgeGraph2 specCap 2
      = Kway.partKwayR (fun _ _ l => l) edgeGraph2 specCap 2 :=
  partKway_deterministic edgeGraph2 specCap 2 _ _
    (fun _ _ l => l.reverse_perm) (fun _ _ l => List.Perm.refl l)

/-! ## C2 and C5: refinement move analysis -/

theorem getD_set_self {α : Type} (l : List α) (i : Nat) (a d : α)
    (h : i < l.length) : (l.set i a).getD i d = a := by
  simp [List.getD_eq_getElem?_getD, List.getElem?_set, h]

theorem getD_set_ne {α : Type} (l : List α) (i j : Nat) (a d : α)
    (h : i ≠ j) : (l.set i a).getD j d = l.getD j d := by
  simp [List.getD_eq_getElem?_getD, List.getElem?_set, h]

theorem extInt_fold (g : Graph) (part : List Nat) (nparts : Nat) (u : Nat)
    (hpart : ∀ i, part.getD i 0 < nparts) :
    ∀ (d : Nat) (ext0 : List Int) (int0 : Int), ext0.length = nparts →
      (((List.range d).foldl
        (fun acc k =>
          let v := g.adj u k
          let w := g.edgeWeight u k
          if part.getD v 0 = part.getD u 0 then (acc.1, acc.2 + w)
          else (acc.1.set (part.getD v 0) (acc.1.getD (part.getD v 0) 0 + w),
            acc.2))
        (ext0, int0)).1.length = nparts) ∧
      (((List.range d).foldl
        (fun acc k =>
          let v := g.adj u k
          let w := g.edgeWeight u k
          if part.getD v 0 = part.getD u 0 then (acc.1, acc.2 + w)
          else (acc.1.set (part.getD v 0) (acc.1.getD (part.getD v 0) 0 + w),
            acc.2))
        (ext0, int0)).2
        = int0 + ∑ k ∈ Finset.range d,
            (if part.getD (g.adj u k) 0 = part.getD u 0 then g.edgeWeight u k
             else 0)) ∧
      (∀ t, t < nparts →
        ((List.range d).foldl
          (fun acc k =>
            let v := g.adj u k
            let w := g.edgeWeight u k
            if part.getD v 0 = part.getD u 0 then (acc.1, acc.2 + w)
            else (acc.1.set (part.getD v 0) (acc.1.getD (part.getD v 0) 0 + w),
              acc.2))
          (ext0, int0)).1.getD t 0
          = ext0.getD t 0 + ∑ k ∈ Finset.range d,
              (if part.getD (g.adj u k) 0 = t ∧ t ≠ part.getD u 0
               then g.edgeWeight u k else 0)) := by
  intro d
  induction d with
  | zero =>
    intro ext0 int0 hl
    refine ⟨hl, by simp, fun t ht => by simp⟩
  | succ d ih =>
    intro ext0 int0 hl
    rcases ih ext0 int0 hl with ⟨ihl, ihi, ihe⟩
    rw [List.range_succ, List.foldl_append]
    simp only [List.foldl_cons, List.foldl_nil]
    set r := (List.range d).foldl
      (fun acc k =>
        let v := g.adj u k
        let w := g.edgeWeight u k
        if part.getD v 0 = part.getD u 0 then (acc.1, acc.2 + w)
        else (acc.1.set (part.getD v 0) (acc.1.getD (part.getD v 0) 0 + w),
          acc.2))
      (ext0, int0) with hr
    by_cases hc : part.getD (g.adj u d) 0 = part.getD u 0
    · rw [if_pos hc]
      refine ⟨ihl, ?_, ?_⟩
      · rw [Finset.sum_range_succ, if_pos hc]
        simp only [ihi]
        ring
      · intro t ht
        rw [Finset.sum_range_succ]
        have : ¬(part.getD (g.adj u d) 0 = t ∧ t ≠ part.getD u 0) := by
          rintro ⟨h1, h2⟩
          exact h2 (by rw [← h1, hc])
        rw [if_neg this, add_zero]
        exact ihe t ht
    · rw [if_neg hc]
      constructor
      · simp only [List.length_set]
        exact ihl
      constructor
      · rw [Finset.sum_range_succ, if_neg hc, add_zero]
        exact ihi
      · intro t ht
        rw [Finset.sum_range_succ]
        by_cases he : part.getD (g.adj u d) 0 = t
        · have hne : t ≠ part.getD u 0 := by rw [← he]; exact hc
          rw [if_pos ⟨he, hne⟩]
          rw [he, getD_set_self _ _ _ _ (by rw [ihl]; exact ht)]
          rw [ihe t ht]
          ring
        · rw [if_neg (by tauto), add_zero]
          rw [getD_set_ne _ _ _ _ _ he]
          exact ihe t ht

theorem extInt_length (g : Graph) (part : List Nat) (nparts : Nat) (u : Nat)
    (hpart : ∀ i, part.getD i 0 < nparts) :
    (Refine.extInt g part nparts u).1.length = nparts :=
  (extInt_fold g part nparts u hpart (g.degree u)
    (List.replicate nparts 0) 0 (by simp)).1

theorem extInt_int (g : Graph) (part : List Nat) (nparts : Nat) (u : Nat)
    (hpart : ∀ i, part.getD i 0 < nparts) :
    (Refine.extInt g part nparts u).2
      = ∑ k ∈ Finset.range (g.degree u),
          (if part.getD (g.adj u k) 0 = part.getD u 0 then g.edgeWeight u k
           else 0) := by
  have h := (extInt_fold g part nparts u hpart (g.degree u)
    (List.replicate nparts 0) 0 (by simp)).2.1
  rw [Refine.extInt, h, zero_add]

theorem extInt_ext (g : Graph) (part : List Nat) (nparts : Nat) (u t : Nat)
    (hpart : ∀ i, part.getD i 0 < nparts) (ht : t < nparts) :
    (Refine.extInt g part nparts u).1.getD t 0
      = ∑ k ∈ Finset.range (g.degree u),
          (if part.getD (g.adj u k) 0 = t ∧ t ≠ part.getD u 0
           then g.edgeWeight u k else 0) := by
  have h := (extInt_fold g part nparts u hpart (g.degree u)
    (List.replicate nparts 0) 0 (by simp)).2.2 t ht
  have hz : (List.replicate nparts (0 : Int)).getD t 0 = 0 :=
    getD_replicate_self _ _ _
  rw [Refine.extInt, h, hz, zero_add]

theorem pwInit_fold (g : Graph) (part : List Nat) (nparts : Nat)
    (hpart : ∀ i, part.getD i 0 < nparts) :
    ∀ (d : Nat) (pw0 : List Int), pw0.length = nparts →
      (((List.range d).foldl
        (fun pw u =>
          pw.set (part.getD u 0) (pw.getD (part.getD u 0) 0 + g.vertexWeight u))
        pw0).length = nparts) ∧
      (∀ t, t < nparts →
        ((List.range d).foldl
          (fun pw u =>
            pw.set (part.getD u 0)
              (pw.getD (part.getD u 0) 0 + g.vertexWeight u))
          pw0).getD t 0
          = pw0.getD t 0 + ∑ u ∈ Finset.range d,
              (if part.getD u 0 = t then g.vertexWeight u else 0)) := by
  intro d
  induction d with
  | zero =>
    intro pw0 hl
    exact ⟨hl, fun t ht => by simp⟩
  | succ d ih =>
    intro pw0 hl
    rcases ih pw0 hl with ⟨ihl, ihe⟩
    rw [List.range_succ, List.foldl_append]
    simp only [List.foldl_cons, List.foldl_nil]
    refine ⟨by rw [List.length_set]; exact ihl, ?_⟩
    intro t ht
    rw [Finset.sum_range_succ]
    by_cases hc : part.getD d 0 = t
    · rw [if_pos hc, hc, getD_set_self _ _ _ _ (by rw [ihl]; exact ht),
        ihe t ht]
      ring
    · rw [if_neg hc, getD_set_ne _ _ _ _ _ hc, ihe t ht, add_zero]

theorem pwInit_length (g : Graph) (part : List Nat) (nparts : Nat)
    (hpart : ∀ i, part.getD i 0 < nparts) :
    (Refine.pwInit g part nparts).length = nparts :=
  (pwInit_fold g part nparts hpart g.n (List.replicate nparts 0) (by simp)).1

theorem pwInit_getD (g : Graph) (part : List Nat) (nparts : Nat) (t : Nat)
    (hpart : ∀ i, part.getD i 0 < nparts) (ht : t < nparts) :
    (Refine.pwInit g part nparts).getD t 0 = partWeight g part t := by
  have h := (pwInit_fold g part nparts hpart g.n
    (List.replicate nparts 0) (by simp)).2 t ht
  have hz : (List.replicate nparts (0 : Int)).getD t 0 = 0 :=
    getD_replicate_self _ _ _
  rw [Refine.pwInit, h, hz, zero_add, partWeight]

theorem foldl_add_eq_sum :
    ∀ (l : List Int) (a : Int), l.foldl (· + ·) a
      = a + ∑ i ∈ Finset.range l.length, l.getD i 0 := by
  intro l
  induction l with
  | nil => intro a; simp
  | cons x xs ih =>
    intro a
    simp only [List.foldl_cons, List.length_cons]
    rw [ih]
    rw [Finset.sum_range_succ']
    simp only [List.getD_cons_succ, List.getD_cons_zero]
    ring

theorem sum_partWeight (g : Graph) (part : List Nat) (nparts : Nat)
    (hpart : ∀ i, part.getD i 0 < nparts) :
    ∑ t ∈ Finset.range nparts, partWeight g part t = totalVwgt g := by
  unfold partWeight totalVwgt
  rw [Finset.sum_comm]
  refine Finset.sum_congr rfl ?_
  intro u _
  rw [Finset.sum_ite_eq (Finset.range nparts) (part.getD u 0)
    (fun _ => g.vertexWeight u)]
  rw [if_pos (Finset.mem_range.mpr (hpart u))]

theorem fmPass_total (g : Graph) (part : List Nat) (nparts : Nat)
    (hpart : ∀ i, part.getD i 0 < nparts) :
    (Refine.pwInit g part nparts).foldl (· + ·) 0 = totalVwgt g := by
  rw [foldl_add_eq_sum, zero_add, pwInit_length g part nparts hpart]
  rw [← sum_partWeight g part nparts hpart]
  refine Finset.sum_congr rfl ?_
  intro t ht
  exact pwInit_getD g part nparts t hpart (Finset.mem_range.mp ht)

theorem partWeight_set (g : Graph) (part : List Nat) (u dst t : Nat)
    (hu : u < g.n) (hlen : part.length = g.n) :
    partWeight g (part.set u dst) t
      = partWeight g part t
        + (if dst = t then g.vertexWeight u else 0)
        - (if part.getD u 0 = t then g.vertexWeight u else 0) := by
  unfold partWeight
  have h1 : ∀ x ∈ (Finset.range g.n).erase u,
      (if (part.set u dst).getD x 0 = t then g.vertexWeight x else 0)
        = (if part.getD x 0 = t then g.vertexWeight x else 0) := by
    intro x hx
    rw [getD_set_ne _ _ _ _ _ (Ne.symm (Finset.mem_erase.mp hx).1)]
  rw [← Finset.sum_erase_add (Finset.range g.n) _ (Finset.mem_range.mpr hu),
      ← Finset.sum_erase_add (Finset.range g.n)
        (fun x => if part.getD x 0 = t then g.vertexWeight x else 0)
        (Finset.mem_range.mpr hu),
      Finset.sum_congr rfl h1,
      getD_set_self _ _ _ _ (by rw [hlen]; exact hu)]
  ring

theorem sum_entries_regroup (g : Graph) (u : Nat) (hu : u < g.n)
    (hadj : ValidAdj g) (P : Nat → Prop) [DecidablePred P] :
    ∑ k ∈ Finset.range (g.degree u),
        (if P (g.adj u k) then g.edgeWeight u k else 0)
      = ∑ b ∈ Finset.range g.n, (if P b then g.wSum u b else 0) := by
  unfold Graph.wSum
  have step1 : ∀ b ∈ Finset.range g.n,
      (if P b then (∑ k ∈ Finset.range (g.degree u),
        if g.adj u k = b then g.edgeWeight u k else 0) else 0)
      = ∑ k ∈ Finset.range (g.degree u),
          (if P b then (if g.adj u k = b then g.edgeWeight u k else 0)
           else 0) := by
    intro b _
    split
    · rfl
    · simp
  rw [Finset.sum_congr rfl step1, Finset.sum_comm]
  refine Finset.sum_congr rfl ?_
  intro k hk
  have hav : g.adj u k < g.n := hadj u hu k (Finset.mem_range.mp hk)
  have hsw : ∀ b, (if P b then (if g.adj u k = b then g.edgeWeight u k else 0)
      else 0)
      = (if g.adj u k = b then (if P b then g.edgeWeight u k else 0)
         else 0) := by
    intro b
    by_cases h1 : P b <;> by_cases h2 : g.adj u k = b <;> simp [h1, h2]
  rw [Finset.sum_congr rfl (fun b _ => hsw b),
      Finset.sum_ite_eq (Finset.range g.n) (g.adj u k)
        (fun b => if P b then g.edgeWeight u k else 0),
      if_pos (Finset.mem_range.mpr hav)]

/-- Proof-layer reformulation of the doubled cut: group the CSR entries
of each vertex pair into `wSum`. -/
def pairCut (g : Graph) (part : List Nat) : Int :=
  ∑ a ∈ Finset.range g.n, ∑ b ∈ Finset.range g.n,
    if part.getD a 0 ≠ part.getD b 0 then g.wSum a b else 0

theorem cutNum_eq_pairCut (g : Graph) (part : List Nat) (hadj : ValidAdj g) :
    g.cutNum part = pairCut g part := by
  unfold Graph.cutNum pairCut
  refine Finset.sum_congr rfl ?_
  intro a ha
  exact sum_entries_regroup g a (Finset.mem_range.mp ha) hadj
    (fun b => part.getD a 0 ≠ part.getD b 0)

theorem pairCut_set (g : Graph) (part : List Nat) (u dst : Nat)
    (hsym : SymGraph g) (hu : u < g.n) (hlen : part.length = g.n)
    (hne : dst ≠ part.getD u 0) :
    pairCut g (part.set u dst)
      = pairCut g part
        + 2 * ((∑ b ∈ Finset.range g.n,
              if part.getD b 0 = part.getD u 0 then g.wSum u b else 0)
            - g.wSum u u
            - (∑ b ∈ Finset.range g.n,
              if part.getD b 0 = dst then g.wSum u b else 0)) := by
  have hulen : u < part.length := by rw [hlen]; exact hu
  have hgu : (part.set u dst).getD u 0 = dst := getD_set_self _ _ _ _ hulen
  have hgo : ∀ b, b ≠ u → (part.set u dst).getD b 0 = part.getD b 0 :=
    fun b hb => getD_set_ne _ _ _ _ _ (Ne.symm hb)
  set G : Nat → Nat → Int := fun a b =>
    (if (part.set u dst).getD a 0 ≠ (part.set u dst).getD b 0
     then g.wSum a b else 0)
    - (if part.getD a 0 ≠ part.getD b 0 then g.wSum a b else 0) with hGdef
  have hG0 : ∀ a b, a ≠ u → b ≠ u → G a b = 0 := by
    intro a b ha hb
    rw [hGdef]
    simp only [hgo a ha, hgo b hb, sub_self]
  have hGsym : ∀ a < g.n, ∀ b < g.n, G a b = G b a := by
    intro a ha b hb
    rw [hGdef]
    simp only []
    rw [hsym a ha b hb]
    congr 1
    · congr 1
      simp [ne_comm]
    · congr 1
      simp [ne_comm]
  have hGuu : G u u = 0 := by
    rw [hGdef]; simp
  have hdiff : pairCut g (part.set u dst) - pairCut g part
      = ∑ a ∈ Finset.range g.n, ∑ b ∈ Finset.range g.n, G a b := by
    unfold pairCut
    rw [← Finset.sum_sub_distrib]
    refine Finset.sum_congr rfl ?_
    intro a _
    rw [← Finset.sum_sub_distrib]
  have hinner : ∀ a, a ≠ u → a ∈ Finset.range g.n →
      ∑ b ∈ Finset.range g.n, G a b = G a u := by
    intro a ha _
    refine Finset.sum_eq_single_of_mem u (Finset.mem_range.mpr hu) ?_
    intro b _ hb
    exact hG0 a b ha hb
  have houter : ∑ a ∈ Finset.range g.n, ∑ b ∈ Finset.range g.n, G a b
      = (∑ b ∈ Finset.range g.n, G u b)
        + ((∑ a ∈ Finset.range g.n, G a u) - G u u) := by
    rw [← Finset.add_sum_erase (Finset.range g.n)
      (fun a => ∑ b ∈ Finset.range g.n, G a b) (Finset.mem_range.mpr hu)]
    congr 1
    rw [Finset.sum_congr rfl (fun a ha =>
      hinner a (Finset.mem_erase.mp ha).1 (Finset.mem_erase.mp ha).2)]
    rw [Finset.sum_erase_eq_sub (Finset.mem_range.mpr hu)]
  have hswap : ∑ a ∈ Finset.range g.n, G a u = ∑ b ∈ Finset.range g.n, G u b :=
    Finset.sum_congr rfl (fun a ha =>
      hGsym a (Finset.mem_range.mp ha) u hu)
  have hpoint : ∀ b, b ∈ Finset.range g.n →
      G u b = ((if part.getD b 0 = part.getD u 0 then g.wSum u b else 0)
        - (if part.getD b 0 = dst then g.wSum u b else 0))
        - (if b = u then g.wSum u u else 0) := by
    intro b _
    by_cases hb : b = u
    · subst hb
      rw [hGuu]
      have h2 : ¬(part.getD b 0 = dst) := fun h => hne h.symm
      have e1 : (if part.getD b 0 = part.getD b 0 then g.wSum b b else 0)
          = g.wSum b b := if_pos rfl
      have e2 : (if part.getD b 0 = dst then g.wSum b b else 0) = 0 :=
        if_neg h2
      have e3 : (if b = b then g.wSum b b else 0) = g.wSum b b := if_pos rfl
      rw [e1, e2, e3]
      ring
    · rw [hGdef]
      simp only [hgu, hgo b hb, if_neg hb]
      by_cases h1 : part.getD b 0 = part.getD u 0
      · have h2 : ¬(part.getD b 0 = dst) := by
          rw [h1]; intro h; exact hne h.symm
        have h3 : dst ≠ part.getD b 0 := fun h => h2 h.symm
        have h4 : ¬(part.getD u 0 ≠ part.getD b 0) := by
          rw [h1]; simp
        rw [if_pos h3, if_neg h4, if_pos h1, if_neg h2]
        ring
      · have h1s : part.getD u 0 ≠ part.getD b 0 := fun h => h1 h.symm
        by_cases h2 : part.getD b 0 = dst
        · have h3 : ¬(dst ≠ part.getD b 0) := by
            rw [h2]; simp
          rw [if_neg h3, if_pos h1s, if_neg h1, if_pos h2]
          ring
        · have h3 : dst ≠ part.getD b 0 := fun h => h2 h.symm
          rw [if_pos h3, if_pos h1s, if_neg h1, if_neg h2]
          ring
  have hGsum : ∑ b ∈ Finset.range g.n, G u b
      = ((∑ b ∈ Finset.range g.n,
            if part.getD b 0 = part.getD u 0 then g.wSum u b else 0)
        - (∑ b ∈ Finset.range g.n,
            if part.getD b 0 = dst then g.wSum u b else 0))
        - g.wSum u u := by
    rw [Finset.sum_congr rfl hpoint]
    rw [Finset.sum_sub_distrib, Finset.sum_sub_distrib]
    congr 1
    rw [Finset.sum_ite_eq' (Finset.range g.n) u (fun _ => g.wSum u u),
      if_pos (Finset.mem_range.mpr hu)]
  have : pairCut g (part.set u dst) - pairCut g part
      = 2 * (((∑ b ∈ Finset.range g.n,
            if part.getD b 0 = part.getD u 0 then g.wSum u b else 0)
        - g.wSum u u)
        - (∑ b ∈ Finset.range g.n,
            if part.getD b 0 = dst then g.wSum u b else 0)) := by
    rw [hdiff, houter, hswap, hGuu, hGsum]
    ring
  linarith [this]

theorem wSum_nonneg (g : Graph) (u v : Nat) (hu : u < g.n)
    (hnne : NonnegEdges g) : 0 ≤ g.wSum u v := by
  refine Finset.sum_nonneg ?_
  intro k hk
  split
  · exact hnne u hu k (Finset.mem_range.mp hk)
  · exact le_refl 0

theorem cutNum_nonneg (g : Graph) (part : List Nat) (hnne : NonnegEdges g) :
    0 ≤ g.cutNum part := by
  refine Finset.sum_nonneg ?_
  intro u hu
  refine Finset.sum_nonneg ?_
  intro k hk
  split
  · exact hnne u (Finset.mem_range.mp hu) k (Finset.mem_range.mp hk)
  · exact le_refl 0

theorem cutNum_move (g : Graph) (part : List Nat) (nparts u dst : Nat)
    (hadj : ValidAdj g) (hsym : SymGraph g)
    (hpart : ∀ i, part.getD i 0 < nparts)
    (hu : u < g.n) (hlen : part.length = g.n)
    (hdn : dst < nparts) (hne : dst ≠ part.getD u 0) :
    g.cutNum (part.set u dst)
      = g.cutNum part
        - 2 * ((Refine.extInt g part nparts u).1.getD dst 0
            - (Refine.extInt g part nparts u).2)
        - 2 * g.wSum u u := by
  rw [cutNum_eq_pairCut _ _ hadj, cutNum_eq_pairCut _ _ hadj,
    pairCut_set g part u dst hsym hu hlen hne,
    extInt_int g part nparts u hpart,
    extInt_ext g part nparts u dst hpart hdn]
  have hsimp : ∀ k ∈ Finset.range (g.degree u),
      (if part.getD (g.adj u k) 0 = dst ∧ dst ≠ part.getD u 0
       then g.edgeWeight u k else 0)
      = (if part.getD (g.adj u k) 0 = dst then g.edgeWeight u k else 0) := by
    intro k _
    by_cases hc : part.getD (g.adj u k) 0 = dst
    · rw [if_pos ⟨hc, hne⟩, if_pos hc]
    · rw [if_neg (fun h => hc h.1), if_neg hc]
  rw [Finset.sum_congr rfl hsimp,
    sum_entries_regroup g u hu hadj
      (fun b => part.getD b 0 = part.getD u 0),
    sum_entries_regroup g u hu hadj (fun b => part.getD b 0 = dst)]
  ring

theorem getDall_set (part : List Nat) (u dst nparts : Nat)
    (h : ∀ i, part.getD i 0 < nparts) (hdn : dst < nparts) :
    ∀ i, (part.set u dst).getD i 0 < nparts := by
  intro i
  by_cases he : u = i
  · subst he
    by_cases hl : u < part.length
    · rw [getD_set_self _ _ _ _ hl]
      exact hdn
    · rw [List.getD_eq_default _ _ (by rw [List.length_set]; omega)]
      have := h part.length
      rw [List.getD_eq_default _ _ (le_refl _)] at this
      exact this
  · rw [getD_set_ne _ _ _ _ _ he]
    exact h i

theorem fmIter_cut (g : Graph) (nparts : Nat) (cap : Int)
    (hadj : ValidAdj g) (hsym : SymGraph g) (hnne : NonnegEdges g) :
    ∀ (fuel : Nat) (part : List Nat) (pw : List Int) (locked : List Bool)
      (improved : Bool),
      (∀ i, part.getD i 0 < nparts) → part.length = g.n →
      g.cutNum (Refine.fmIter g nparts cap fuel part pw locked improved).1
        ≤ g.cutNum part := by
  intro fuel
  induction fuel with
  | zero => intro part pw locked improved _ _; exact le_refl _
  | succ n ih =>
    intro part pw locked improved hpart hlen
    simp only [Refine.fmIter]
    split
    · rename_i u dst gain heq
      split
      · rename_i hgain
        rcases findBest_valid _ _ _ _ _ _ _ _ _ heq with
          ⟨hu, hdn, _, hne, _, _, hgeq⟩
        have hstep := cutNum_move g part nparts u dst hadj hsym hpart hu
          hlen hdn hne
        refine le_trans (ih (part.set u dst) _ _ _
          (getDall_set part u dst nparts hpart hdn)
          (by rw [List.length_set]; exact hlen)) ?_
        rw [hstep, ← hgeq]
        have hww := wSum_nonneg g u u hu hnne
        omega
      · exact le_refl _
    · exact le_refl _

theorem tdiv_two_mono {a b : Int} (ha : 0 ≤ a) (h : a ≤ b) :
    Int.tdiv a 2 ≤ Int.tdiv b 2 := by
  rw [Int.tdiv_eq_ediv ha (by norm_num),
    Int.tdiv_eq_ediv (le_trans ha h) (by norm_num)]
  omega

theorem fmPass_cut (g : Graph) (capOf : Int → Nat → Int) (part : List Nat)
    (nparts : Nat) (hadj : ValidAdj g) (hsym : SymGraph g)
    (hnne : NonnegEdges g) (hk : 1 ≤ nparts)
    (hb : ∀ p ∈ part, p < nparts) (hlen : part.length = g.n) :
    g.cutNum (Refine.fmPass g capOf part nparts).1 ≤ g.cutNum part := by
  unfold Refine.fmPass
  exact fmIter_cut g nparts _ hadj hsym hnne g.n part _ _ _
    (fun i => getD_lt_of_all_lt hb hk i) hlen

theorem fmRefineLoop_cut (g : Graph) (capOf : Int → Nat → Int)
    (nparts : Nat) (hadj : ValidAdj g) (hsym : SymGraph g)
    (hnne : NonnegEdges g) (hk : 1 ≤ nparts) :
    ∀ (passes : Nat) (part : List Nat),
      (∀ p ∈ part, p < nparts) → part.length = g.n →
      g.cutNum (Refine.fmRefineLoop g capOf nparts passes part)
        ≤ g.cutNum part := by
  intro passes
  induction passes with
  | zero => intro part _ _; exact le_refl _
  | succ n ih =>
    intro part hb hlen
    simp only [Refine.fmRefineLoop]
    split
    · refine le_trans (ih _ (fmPass_bounded g capOf part nparts hb) ?_) ?_
      · rw [fmPass_length]; exact hlen
      · exact fmPass_cut g capOf part nparts hadj hsym hnne hk hb hlen
    · exact fmPass_cut g capOf part nparts hadj hsym hnne hk hb hlen

/-- C2 (amended): starting from any valid partition (`part[u] < nparts`,
length `n`) of a graph satisfying the spec's data-model expectations —
well-formed adjacency (`ValidAdj`), undirected in the aggregated-weight
sense (`SymGraph`), non-negative edge weights — `fm_refine` never
increases the edge cut, for every balance cap and every pass budget.
Each committed move has strictly positive gain `ext[to] - int`, and on a
symmetric graph such a move decreases the doubled cut by exactly
`2·gain + 2·w(u,u) > 0`.  On asymmetric input the guarantee fails
(`fmRefine_can_increase_cut`). -/
theorem fmRefine_cut_le (g : Graph) (capOf : Int → Nat → Int)
    (part : List Nat) (nparts maxPasses : Nat)
    (hadj : ValidAdj g) (hsym : SymGraph g) (hnne : NonnegEdges g)
    (hb : ∀ p ∈ part, p < nparts) (hlen : part.length = g.n) :
    g.edgeCut (fmRefine g capOf part nparts maxPasses) ≤ g.edgeCut part := by
  unfold fmRefine
  split
  · exact le_refl _
  · rename_i hcond
    push_neg at hcond
    have hk : 1 ≤ nparts := by omega
    unfold Graph.edgeCut
    exact tdiv_two_mono (cutNum_nonneg g _ hnne)
      (fmRefineLoop_cut g capOf nparts hadj hsym hnne hk maxPasses part
        hb hlen)

theorem fmIter_balance (g : Graph) (nparts : Nat) (cap : Int) (t : Nat)
    (hnnv : NonnegVerts g) (ht : t < nparts) :
    ∀ (fuel : Nat) (part : List Nat) (pw : List Int) (locked : List Bool)
      (improved : Bool),
      (∀ i, part.getD i 0 < nparts) → part.length = g.n →
      pw.length = nparts →
      (∀ s, s < nparts → pw.getD s 0 = partWeight g part s) →
      partWeight g part t ≤ cap →
      partWeight g
          (Refine.fmIter g nparts cap fuel part pw locked improved).1 t
        ≤ cap := by
  intro fuel
  induction fuel with
  | zero => intro part pw locked improved _ _ _ _ hE; exact hE
  | succ n ih =>
    intro part pw locked improved hA hB hC hD hE
    simp only [Refine.fmIter]
    split
    · rename_i u dst gain heq
      split
      · rcases findBest_valid _ _ _ _ _ _ _ _ _ heq with
          ⟨hu, hdn, _, hne, _, hbal, _⟩
        have hfr : part.getD u 0 < nparts := hA u
        have hfd : part.getD u 0 ≠ dst := fun h => hne h.symm
        have hvw : 0 ≤ g.vertexWeight u := hnnv u hu
        have hpw1len : (pw.set (part.getD u 0)
            (pw.getD (part.getD u 0) 0 - g.vertexWeight u)).length = nparts := by
          rw [List.length_set]; exact hC
        have hpw1 : ∀ s, s < nparts →
            (pw.set (part.getD u 0)
              (pw.getD (part.getD u 0) 0 - g.vertexWeight u)).getD s 0
            = (if s = part.getD u 0
               then partWeight g part s - g.vertexWeight u
               else partWeight g part s) := by
          intro s hs
          by_cases hsf : s = part.getD u 0
          · rw [hsf, getD_set_self _ _ _ _ (by rw [hC]; exact hsf ▸ hs),
              if_pos rfl, hD (part.getD u 0) (hsf ▸ hs)]
          · rw [getD_set_ne _ _ _ _ _ (fun h => hsf h.symm), if_neg hsf,
              hD s hs]
        refine ih (part.set u dst) _ _ _
          (getDall_set part u dst nparts hA hdn)
          (by rw [List.length_set]; exact hB)
          (by rw [List.length_set]; exact hpw1len) ?_ ?_
        · intro s hs
          rw [partWeight_set g part u dst s hu hB]
          by_cases hsd : s = dst
          · rw [hsd]
            rw [getD_set_self _ _ _ _ (by rw [hpw1len]; exact hsd ▸ hs)]
            rw [hpw1 dst (hsd ▸ hs), if_neg hne]
            rw [if_pos rfl, if_neg hfd]
            ring
          · rw [getD_set_ne _ _ _ _ _ (fun h => hsd h.symm), hpw1 s hs]
            by_cases hsf : s = part.getD u 0
            · rw [if_pos hsf, if_neg (fun h => hsd h.symm), hsf, if_pos rfl]
              ring
            · rw [if_neg hsf, if_neg (fun h => hsd h.symm),
                if_neg (fun h => hsf h.symm)]
              ring
        · rw [partWeight_set g part u dst t hu hB]
          by_cases htd : t = dst
          · rw [if_pos htd.symm, if_neg (fun h => hfd (htd ▸ h))]
            have h1 := hD dst hdn
            have h2 : partWeight g part t = partWeight g part dst := by
              rw [htd]
            omega
          · rw [if_neg (fun h => htd h.symm)]
            by_cases htf : part.getD u 0 = t
            · rw [if_pos htf]
              omega
            · rw [if_neg htf]
              omega
      · exact hE
    · exact hE

theorem fmPass_balance (g : Graph) (capOf : Int → Nat → Int)
    (part : List Nat) (nparts t : Nat) (hnnv : NonnegVerts g)
    (hA : ∀ i, part.getD i 0 < nparts) (hB : part.length = g.n)
    (ht : t < nparts)
    (hE : partWeight g part t ≤ capOf (totalVwgt g) nparts) :
    partWeight g (Refine.fmPass g capOf part nparts).1 t
      ≤ capOf (totalVwgt g) nparts := by
  unfold Refine.fmPass
  simp only []
  rw [fmPass_total g part nparts hA]
  exact fmIter_balance g nparts _ t hnnv ht g.n part _ _ _ hA hB
    (pwInit_length g part nparts hA)
    (fun s hs => pwInit_getD g part nparts s hA hs) hE

theorem fmRefineLoop_balance (g : Graph) (capOf : Int → Nat → Int)
    (nparts t : Nat) (hnnv : NonnegVerts g) (hk : 1 ≤ nparts)
    (ht : t < nparts) :
    ∀ (passes : Nat) (part : List Nat),
      (∀ p ∈ part, p < nparts) → part.length = g.n →
      partWeight g part t ≤ capOf (totalVwgt g) nparts →
      partWeight g (Refine.fmRefineLoop g capOf nparts passes part) t
        ≤ capOf (totalVwgt g) nparts := by
  intro passes
  induction passes with
  | zero => intro part _ _ hE; exact hE
  | succ n ih =>
    intro part hb hlen hE
    simp only [Refine.fmRefineLoop]
    split
    · refine ih _ (fmPass_bounded g capOf part nparts hb) ?_ ?_
      · rw [fmPass_length]; exact hlen
      · exact fmPass_balance g capOf part nparts t hnnv
          (fun i => getD_lt_of_all_lt hb hk i) hlen ht hE
    · exact fmPass_balance g capOf part nparts t hnnv
        (fun i => getD_lt_of_all_lt hb hk i) hlen ht hE

/-- C5: during `fm_refine` (with non-negative vertex weights, as the
spec's data model expects), every part whose weight is at most the
balance cap before the call still is after it: a move into `to` is
committed only after the `part_weight[to] + vwgt(u) <= cap` filter, a
move out of `from` only shrinks that part's weight, and other parts are
untouched.  The cap the code uses in every pass equals
`capOf (totalVwgt g) nparts` because part weights always sum to the
total vertex weight. -/
theorem fmRefine_balance_le (g : Graph) (capOf : Int → Nat → Int)
    (part : List Nat) (nparts maxPasses t : Nat) (hnnv : NonnegVerts g)
    (hb : ∀ p ∈ part, p < nparts) (hlen : part.length = g.n)
    (ht : t < nparts)
    (hE : partWeight g part t ≤ capOf (totalVwgt g) nparts) :
    partWeight g (fmRefine g capOf part nparts maxPasses) t
      ≤ capOf (totalVwgt g) nparts := by
  unfold fmRefine
  split
  · exact hE
  · rename_i hcond
    push_neg at hcond
    exact fmRefineLoop_balance g capOf nparts t hnnv (by omega) ht
      maxPasses part hb hlen hE

/-- An asymmetric CSR graph: the entry `2 → 0` (weight 10) has no
reverse entry, and `0 → 1` (weight 1) has none either. -/
def asymGraph : Graph := ⟨4, [0, 1, 1, 2, 2], [1, 0], [1, 10], []⟩

/-- C2 counterexample: on the asymmetric `asymGraph`, `fm_refine` moves
vertex 0 to part 1 (its directed gain is +1), which puts the unseen
heavy entry `2 → 0` across the cut: the edge cut rises from 0 to 5.
`specCap 4 2 = 3` is exactly the f64 cap the code computes at
`total = 4, k = 2`. -/
theorem fmRefine_can_increase_cut :
    asymGraph.edgeCut ([0, 1, 0, 1] : List Nat) = 0 ∧
    fmRefine asymGraph specCap [0, 1, 0, 1] 2 10 = [1, 1, 0, 1] ∧
    asymGraph.edgeCut (fmRefine asymGraph specCap [0, 1, 0, 1] 2 10) = 5 ∧
    (∀ p ∈ ([0, 1, 0, 1] : List Nat), p < 2) ∧
    ([0, 1, 0, 1] : List Nat).length = asymGraph.n := by decide

/-- Witness for C2 on a symmetric graph. -/
theorem fmRefine_cut_le_witness :
    edgeGraph2.edgeCut (fmRefine edgeGraph2 specCap [0, 1] 2 10)
      ≤ edgeGraph2.edgeCut [0, 1] :=
  fmRefine_cut_le edgeGraph2 specCap [0, 1] 2 10 (by decide) (by decide)
    (by decide) (by decide) (by decide)

/-- Witness for C5 on a concrete graph and part. -/
theorem fmRefine_balance_le_witness :
    partWeight edgeGraph2 (fmRefine edgeGraph2 specCap [0, 1] 2 10) 0
      ≤ specCap (totalVwgt edgeGraph2) 2 :=
  fmRefine_balance_le edgeGraph2 specCap [0, 1] 2 10 0 (by decide)
    (by decide) (by decide) (by decide) (by decide)
